import Mathlib

/-!
Verification development for the repulsive-surfaces core: the 6-D bounding
volume hierarchy (`src/spatial/bvh_6d.cpp`), the block cluster tree
(`src/block_cluster_tree.cpp`) and the gradient-flow line search
(`src/surface_flow.cpp`).

The C++ `double` arithmetic is embedded as exact rational arithmetic (`ℚ`).
Fallible or potentially non-terminating recursions are embedded with an
explicit fuel argument returning `Option`; `none` models non-termination.
-/

set_option maxHeartbeats 1000000

namespace RepSurf

/-- A three-dimensional vector with rational coordinates, standing for the
`Vector3` type of the source (three doubles). -/
structure Vector3 where
  x : ℚ
  y : ℚ
  z : ℚ
deriving DecidableEq

def Vector3.add (a b : Vector3) : Vector3 := ⟨a.x + b.x, a.y + b.y, a.z + b.z⟩

def Vector3.sub (a b : Vector3) : Vector3 := ⟨a.x - b.x, a.y - b.y, a.z - b.z⟩

def Vector3.scale (q : ℚ) (a : Vector3) : Vector3 := ⟨q * a.x, q * a.y, q * a.z⟩

/-- Squared Euclidean norm.  The source compares `norm` values; all such
comparisons are represented here in the equivalent squared form, which keeps
every quantity rational. -/
def Vector3.normSq (a : Vector3) : ℚ := a.x * a.x + a.y * a.y + a.z * a.z

/-- Componentwise minimum, `vectorMin` of `helpers.h`. -/
def vectorMin (a b : Vector3) : Vector3 := ⟨min a.x b.x, min a.y b.y, min a.z b.z⟩

/-- Componentwise maximum, `vectorMax` of `helpers.h`. -/
def vectorMax (a b : Vector3) : Vector3 := ⟨max a.x b.x, max a.y b.y, max a.z b.z⟩

/-- Squared distance between two points. -/
def distSq (a b : Vector3) : ℚ := (a.sub b).normSq

/-- A face body: `MassNormalPoint` of `spatial/bvh_6d.h` as used by
`bvh_6d.cpp` (mass = face area, unit normal, barycenter, face index). -/
structure MassNormalPoint where
  mass : ℚ
  normal : Vector3
  point : Vector3
  elementID : ℤ
deriving DecidableEq

/-- `NextAxis` of `bvh_6d.cpp`: 0 → 1, 1 → 2, 2 → 0, and every other value
(including 3, 4, 5) → 0. -/
def NextAxis (axis : ℕ) : ℕ :=
  match axis with
  | 0 => 1
  | 1 => 2
  | 2 => 0
  | _ => 0

/-- `GetCoordFromBody` of `bvh_6d.cpp`: axes 0–2 read the barycenter, axes
3–5 the normal.  The source exits on any other axis; that case is modelled
as 0 and is never reached by the build, which only produces axes 0–2. -/
def GetCoordFromBody (mp : MassNormalPoint) (axis : ℕ) : ℚ :=
  match axis with
  | 0 => mp.point.x
  | 1 => mp.point.y
  | 2 => mp.point.z
  | 3 => mp.normal.x
  | 4 => mp.normal.y
  | 5 => mp.normal.z
  | _ => 0

/-- The coordinates of all bodies on the given axis, sorted ascending: the
`coords` vector of `BVHNode6D::AxisSplittingPlane` after `std::sort`. -/
def sortedCoords (points : List MassNormalPoint) (axis : ℕ) : List ℚ :=
  List.insertionSort (· ≤ ·) (points.map (fun p => GetCoordFromBody p axis))

/-- The quantity `width1² + width2²` computed for candidate split index `i`
in `BVHNode6D::AxisSplittingPlane`, over the sorted coordinate list `c`. -/
def widthsSq (c : List ℚ) (i : ℕ) : ℚ :=
  (c.getD i 0 - c.getD 0 0) * (c.getD i 0 - c.getD 0 0) +
    (if i = c.length - 1 then 0 else c.getD (c.length - 1) 0 - c.getD (i + 1) 0) *
      (if i = c.length - 1 then 0 else c.getD (c.length - 1) 0 - c.getD (i + 1) 0)

/-- First index attaining the minimum of `f` over `0, …, k`: the source
initializes `minWidths = INFINITY` and updates on a strict `<`, so index 0
always enters and later ties never replace the incumbent. -/
def argminFirst (f : ℕ → ℚ) : ℕ → ℕ × ℚ
  | 0 => (0, f 0)
  | k + 1 =>
    let b := argminFirst f k
    if f (k + 1) < b.2 then (k + 1, f (k + 1)) else b

/-- The `splitIndex` selected by `BVHNode6D::AxisSplittingPlane`. -/
def splitIndexOf (points : List MassNormalPoint) (axis : ℕ) : ℕ :=
  (argminFirst (widthsSq (sortedCoords points axis)) (points.length - 1)).1

/-- `BVHNode6D::AxisSplittingPlane`: the midpoint between the chosen sorted
coordinate and its successor. -/
def AxisSplittingPlane (points : List MassNormalPoint) (axis : ℕ) : ℚ :=
  (sortedCoords points axis).getD (splitIndexOf points axis) 0 / 2 +
    (sortedCoords points axis).getD (splitIndexOf points axis + 1) 0 / 2

/-- Per-node data stored by `BVHNode6D` (fields relevant to this
development).  `averageNormal` is omitted: it is the only field whose
computation (`normalize`) leaves ℚ, and no stated property reads it.
The empty-node constructor of the source never initializes `minCoords` and
`maxCoords`; they are modelled as 0 there, and no evaluated configuration
reads the bounds of an empty node. -/
structure NodeData where
  totalMass : ℚ
  centerOfMass : Vector3
  minCoords : Vector3
  maxCoords : Vector3
  elementID : ℤ
  splitAxis : ℕ
  splitPoint : ℚ
  numNodesInBranch : ℕ
  nodeID : ℕ
deriving DecidableEq

/-- A built BVH node: empty, leaf, or interior with exactly two children
(`lesserNode` then `greaterNode`), mirroring `BVHNode6D`. -/
inductive BVHNode6D where
  | emptyNode (d : NodeData)
  | leafNode (d : NodeData)
  | interiorNode (d : NodeData) (lesser greater : BVHNode6D)
deriving DecidableEq

def BVHNode6D.dataOf : BVHNode6D → NodeData
  | .emptyNode d => d
  | .leafNode d => d
  | .interiorNode d _ _ => d

/-- Data of an empty node as assigned by the constructor. -/
def emptyData (axis : ℕ) : NodeData :=
  { totalMass := 0, centerOfMass := ⟨0, 0, 0⟩, minCoords := ⟨0, 0, 0⟩,
    maxCoords := ⟨0, 0, 0⟩, elementID := -1, splitAxis := axis,
    splitPoint := 0, numNodesInBranch := 1, nodeID := 0 }

/-- Data of a leaf node as assigned by the constructor. -/
def leafData (axis : ℕ) (mp : MassNormalPoint) : NodeData :=
  { totalMass := mp.mass, centerOfMass := mp.point, minCoords := mp.point,
    maxCoords := mp.point, elementID := mp.elementID, splitAxis := axis,
    splitPoint := 0, numNodesInBranch := 1, nodeID := 0 }

/-- `BVHNode6D::averageDataFromChildren` together with the interior branch of
the constructor: mass and first moment are summed over the two children, the
center of mass is divided by the total, bounds are componentwise min/max. -/
def averageDataFromChildren (axis : ℕ) (sp : ℚ) (l g : BVHNode6D) : NodeData :=
  { totalMass := l.dataOf.totalMass + g.dataOf.totalMass,
    centerOfMass :=
      Vector3.scale (1 / (l.dataOf.totalMass + g.dataOf.totalMass))
        ((Vector3.scale l.dataOf.totalMass l.dataOf.centerOfMass).add
          (Vector3.scale g.dataOf.totalMass g.dataOf.centerOfMass)),
    minCoords := vectorMin l.dataOf.minCoords g.dataOf.minCoords,
    maxCoords := vectorMax l.dataOf.maxCoords g.dataOf.maxCoords,
    elementID := -1, splitAxis := axis, splitPoint := sp,
    numNodesInBranch := l.dataOf.numNodesInBranch + g.dataOf.numNodesInBranch + 1,
    nodeID := 0 }

/-- The bodies sent to the lesser child: `coord ≤ splitPoint`, preserving
input order, as in the constructor's partition loop. -/
def lesserOf (points : List MassNormalPoint) (axis : ℕ) : List MassNormalPoint :=
  points.filter (fun p => GetCoordFromBody p axis ≤ AxisSplittingPlane points axis)

/-- The bodies sent to the greater child: `coord > splitPoint`. -/
def greaterOf (points : List MassNormalPoint) (axis : ℕ) : List MassNormalPoint :=
  points.filter (fun p => ¬ GetCoordFromBody p axis ≤ AxisSplittingPlane points axis)

/-- The `BVHNode6D` constructor.  `fuel` bounds the recursion depth; `none`
models non-termination of the source recursion. -/
def buildBVH : ℕ → List MassNormalPoint → ℕ → Option BVHNode6D
  | 0, _, _ => none
  | _ + 1, [], axis => some (.emptyNode (emptyData axis))
  | _ + 1, [mp], axis => some (.leafNode (leafData axis mp))
  | fuel + 1, points@(_ :: _ :: _), axis =>
    match buildBVH fuel (lesserOf points axis) (NextAxis axis),
        buildBVH fuel (greaterOf points axis) (NextAxis axis) with
    | some l, some g =>
      some (.interiorNode (averageDataFromChildren axis (AxisSplittingPlane points axis) l g) l g)
    | _, _ => none

/-- `BVHNode6D::assignIDsRecursively`: pre-order ID assignment; returns the
relabelled tree and the next free ID. -/
def assignIDs : BVHNode6D → ℕ → BVHNode6D × ℕ
  | .emptyNode d, s => (.emptyNode { d with nodeID := s }, s + 1)
  | .leafNode d, s => (.leafNode { d with nodeID := s }, s + 1)
  | .interiorNode d l g, s =>
    let pl := assignIDs l (s + 1)
    let pg := assignIDs g pl.2
    (.interiorNode { d with nodeID := s } pl.1 pg.1, pg.2)

/-- `Create6DBVHFromMesh` on an explicit body list: build from axis 0, then
assign IDs from 0.  The fuel is made explicit. -/
def Create6DBVHFromBodies (fuel : ℕ) (bodies : List MassNormalPoint) : Option BVHNode6D :=
  match buildBVH fuel bodies 0 with
  | none => none
  | some t => some (assignIDs t 0).1

/-- Number of nodes of the subtree (structural). -/
def BVHNode6D.size : BVHNode6D → ℕ
  | .emptyNode _ => 1
  | .leafNode _ => 1
  | .interiorNode _ l g => l.size + g.size + 1

/-- All element (face) IDs of leaves below the node, in DFS order.  This
models the `clusterIndices` / `elementIds` array of the missing
`spatial/bvh_6d.h` header: the spec describes it as all leaf face ids
transitively contained. -/
def BVHNode6D.elems : BVHNode6D → List ℤ
  | .emptyNode _ => []
  | .leafNode d => [d.elementID]
  | .interiorNode _ l g => l.elems ++ g.elems

/-- Modelled from the spec: `nElements` of the missing `spatial/bvh_6d.h`
header, the number of leaf faces below the node. -/
def BVHNode6D.nElements (t : BVHNode6D) : ℕ := t.elems.length

/-- The data records of all leaves below the node, in DFS order. -/
def BVHNode6D.leaves : BVHNode6D → List NodeData
  | .emptyNode _ => []
  | .leafNode d => [d]
  | .interiorNode _ l g => l.leaves ++ g.leaves

/-- The node itself and all its descendants, in pre-order. -/
def BVHNode6D.subtrees : BVHNode6D → List BVHNode6D
  | .emptyNode d => [.emptyNode d]
  | .leafNode d => [.leafNode d]
  | .interiorNode d l g => .interiorNode d l g :: (l.subtrees ++ g.subtrees)

/-- The children list of a node (empty for non-interior nodes). -/
def BVHNode6D.childrenOf : BVHNode6D → List BVHNode6D
  | .emptyNode _ => []
  | .leafNode _ => []
  | .interiorNode _ l g => [l, g]

/-- The node IDs of all subtrees, in pre-order. -/
def BVHNode6D.nodeIDs (t : BVHNode6D) : List ℕ := t.subtrees.map (fun s => s.dataOf.nodeID)

theorem argminFirst_fst_le (f : ℕ → ℚ) (k : ℕ) : (argminFirst f k).1 ≤ k := by
  induction k with
  | zero => simp [argminFirst]
  | succ k ih =>
    simp only [argminFirst]
    split
    · exact le_refl _
    · exact Nat.le_succ_of_le ih

theorem argminFirst_snd_eq (f : ℕ → ℚ) (k : ℕ) :
    (argminFirst f k).2 = f (argminFirst f k).1 := by
  induction k with
  | zero => simp [argminFirst]
  | succ k ih =>
    simp only [argminFirst]
    split
    · rfl
    · exact ih

theorem argminFirst_min (f : ℕ → ℚ) (k : ℕ) :
    ∀ j ≤ k, (argminFirst f k).2 ≤ f j := by
  induction k with
  | zero =>
    intro j hj
    simp only [Nat.le_zero] at hj
    simp [argminFirst, hj]
  | succ k ih =>
    intro j hj
    simp only [argminFirst]
    rcases Nat.le_succ_iff_eq_or_le.mp hj with h | h
    · subst h
      split
      · exact le_refl _
      · exact le_of_not_lt (by assumption)
    · split
      · exact le_of_lt (lt_of_lt_of_le (by assumption) (ih j h))
      · exact ih j h

theorem argminFirst_first (f : ℕ → ℚ) (k : ℕ) :
    ∀ j < (argminFirst f k).1, (argminFirst f k).2 < f j := by
  induction k with
  | zero =>
    intro j hj
    exact absurd hj (Nat.not_lt_zero j)
  | succ k ih =>
    intro j hj
    have heq : argminFirst f (k + 1) =
        if f (k + 1) < (argminFirst f k).2 then (k + 1, f (k + 1)) else argminFirst f k := rfl
    by_cases h : f (k + 1) < (argminFirst f k).2
    · rw [heq, if_pos h] at hj ⊢
      exact lt_of_lt_of_le h (argminFirst_min f k j (Nat.lt_succ_iff.mp hj))
    · rw [heq, if_neg h] at hj ⊢
      exact ih j hj

theorem length_sortedCoords (points : List MassNormalPoint) (axis : ℕ) :
    (sortedCoords points axis).length = points.length := by
  unfold sortedCoords
  rw [List.length_insertionSort, List.length_map]

theorem sorted_sortedCoords (points : List MassNormalPoint) (axis : ℕ) :
    (sortedCoords points axis).Sorted (· ≤ ·) :=
  List.sorted_insertionSort _ _

theorem perm_sortedCoords (points : List MassNormalPoint) (axis : ℕ) :
    List.Perm (sortedCoords points axis) (points.map (fun p => GetCoordFromBody p axis)) :=
  List.perm_insertionSort _ _

theorem sorted_getD_mono (c : List ℚ) (hs : c.Sorted (· ≤ ·)) (i j : ℕ) (hij : i ≤ j)
    (hj : j < c.length) : c.getD i 0 ≤ c.getD j 0 := by
  have hi : i < c.length := Nat.lt_of_le_of_lt hij hj
  rw [List.getD_eq_getElem c 0 hi, List.getD_eq_getElem c 0 hj]
  rcases Nat.eq_or_lt_of_le hij with h | h
  · subst h
    exact le_refl _
  · rw [List.Sorted] at hs
    exact List.pairwise_iff_getElem.mp hs i j hi hj h

theorem widthsSq_secondLast_le (c : List ℚ) (hs : c.Sorted (· ≤ ·)) (h2 : 2 ≤ c.length) :
    widthsSq c (c.length - 2) ≤ widthsSq c (c.length - 1) := by
  have hne : ¬ (c.length - 2 = c.length - 1) := by omega
  have hsucc : c.length - 2 + 1 = c.length - 1 := by omega
  unfold widthsSq
  rw [if_neg hne, if_pos rfl, hsucc]
  have hzero : c.getD (c.length - 1) 0 - c.getD (c.length - 1) 0 = 0 := by ring
  rw [hzero]
  have h0 : (0:ℚ) ≤ c.getD (c.length - 2) 0 - c.getD 0 0 :=
    sub_nonneg.mpr (sorted_getD_mono c hs 0 (c.length - 2) (Nat.zero_le _) (by omega))
  have h1 : c.getD (c.length - 2) 0 - c.getD 0 0 ≤ c.getD (c.length - 1) 0 - c.getD 0 0 :=
    sub_le_sub_right (sorted_getD_mono c hs (c.length - 2) (c.length - 1) (by omega) (by omega)) _
  nlinarith

/-- C10.  `BVHNode6D::AxisSplittingPlane` called with at least two bodies
selects a split index at most `nPoints − 2`: the last candidate index never
strictly improves on index `nPoints − 2`, whose upper width is zero.  Hence
both accesses `coords[splitIndex]` and `coords[splitIndex + 1]` are within
bounds.  (Coordinates are rationals here, so the finiteness proviso of the
claim holds automatically.) -/
theorem splitIndex_le_sub_two (points : List MassNormalPoint) (axis : ℕ)
    (h2 : 2 ≤ points.length) :
    splitIndexOf points axis ≤ points.length - 2 ∧
      splitIndexOf points axis + 1 < points.length := by
  set c := sortedCoords points axis with hc
  have hlen : c.length = points.length := length_sortedCoords points axis
  have hs : c.Sorted (· ≤ ·) := sorted_sortedCoords points axis
  have hle : splitIndexOf points axis ≤ points.length - 1 := argminFirst_fst_le _ _
  have hne : splitIndexOf points axis ≠ points.length - 1 := by
    intro heq
    have hlt : points.length - 2 < (argminFirst (widthsSq c) (points.length - 1)).1 := by
      rw [splitIndexOf] at heq
      rw [← hc] at heq
      rw [heq]
      omega
    have hfirst := argminFirst_first (widthsSq c) (points.length - 1) (points.length - 2) hlt
    rw [argminFirst_snd_eq] at hfirst
    have hidx : (argminFirst (widthsSq c) (points.length - 1)).1 = points.length - 1 := by
      rw [splitIndexOf] at heq
      rw [← hc] at heq
      exact heq
    rw [hidx] at hfirst
    have hmono := widthsSq_secondLast_le c hs (by omega)
    rw [hlen] at hmono
    exact absurd hmono (not_le.mpr hfirst)
  constructor
  · omega
  · omega

/-- Concrete bodies used by witnesses: unit masses, normal `(0,0,1)`,
barycenters on the main diagonal at parameters 0, 1, 2, 3, 100, so that
every coordinate axis separates every pair of bodies. -/
def exBodies : List MassNormalPoint :=
  [⟨1, ⟨0, 0, 1⟩, ⟨0, 0, 0⟩, 0⟩, ⟨1, ⟨0, 0, 1⟩, ⟨1, 1, 1⟩, 1⟩,
    ⟨1, ⟨0, 0, 1⟩, ⟨2, 2, 2⟩, 2⟩, ⟨1, ⟨0, 0, 1⟩, ⟨3, 3, 3⟩, 3⟩,
    ⟨1, ⟨0, 0, 1⟩, ⟨100, 100, 100⟩, 4⟩]

/-- Witness for C10 at the concrete body list. -/
theorem splitIndex_le_sub_two_witness :
    splitIndexOf exBodies 0 ≤ exBodies.length - 2 ∧
      splitIndexOf exBodies 0 + 1 < exBodies.length :=
  splitIndex_le_sub_two exBodies 0 (by decide)

/-- All bodies project to the same coordinate on the given axis. -/
def allEqOn (points : List MassNormalPoint) (axis : ℕ) : Prop :=
  ∀ p ∈ points, ∀ q ∈ points, GetCoordFromBody p axis = GetCoordFromBody q axis

instance (points : List MassNormalPoint) (axis : ℕ) : Decidable (allEqOn points axis) := by
  unfold allEqOn
  infer_instance

theorem sortedCoords_getD_mem (points : List MassNormalPoint) (axis : ℕ) (i : ℕ)
    (hi : i < points.length) :
    ∃ p ∈ points, GetCoordFromBody p axis = (sortedCoords points axis).getD i 0 := by
  have hlen : (sortedCoords points axis).length = points.length :=
    length_sortedCoords points axis
  have hi' : i < (sortedCoords points axis).length := by omega
  rw [List.getD_eq_getElem _ 0 hi']
  have hmem : (sortedCoords points axis)[i] ∈ sortedCoords points axis :=
    List.getElem_mem hi'
  have hmem2 : (sortedCoords points axis)[i] ∈ points.map (fun p => GetCoordFromBody p axis) :=
    (perm_sortedCoords points axis).mem_iff.mp hmem
  obtain ⟨p, hp, hval⟩ := List.mem_map.mp hmem2
  exact ⟨p, hp, hval⟩

theorem splittingPlane_allEq (points : List MassNormalPoint) (axis : ℕ)
    (hall : allEqOn points axis) (h2 : 2 ≤ points.length) :
    ∀ p ∈ points, AxisSplittingPlane points axis = GetCoordFromBody p axis := by
  intro p hp
  obtain ⟨hidx, hidx1⟩ := splitIndex_le_sub_two points axis h2
  obtain ⟨q1, hq1, hv1⟩ := sortedCoords_getD_mem points axis (splitIndexOf points axis) (by omega)
  obtain ⟨q2, hq2, hv2⟩ := sortedCoords_getD_mem points axis (splitIndexOf points axis + 1) hidx1
  unfold AxisSplittingPlane
  rw [← hv1, ← hv2, hall q1 hq1 p hp, hall q2 hq2 p hp]
  ring

theorem lesserOf_allEq (points : List MassNormalPoint) (axis : ℕ)
    (hall : allEqOn points axis) (h2 : 2 ≤ points.length) :
    lesserOf points axis = points := by
  unfold lesserOf
  apply List.filter_eq_self.mpr
  intro p hp
  simp only [decide_eq_true_eq]
  rw [splittingPlane_allEq points axis hall h2 p hp]

theorem greaterOf_allEq (points : List MassNormalPoint) (axis : ℕ)
    (hall : allEqOn points axis) (h2 : 2 ≤ points.length) :
    greaterOf points axis = [] := by
  unfold greaterOf
  apply List.filter_eq_nil_iff.mpr
  intro p hp
  simp only [decide_eq_true_eq, not_not]
  rw [splittingPlane_allEq points axis hall h2 p hp]

theorem coord_between (points : List MassNormalPoint) (axis : ℕ) (p : MassNormalPoint)
    (hp : p ∈ points) :
    (sortedCoords points axis).getD 0 0 ≤ GetCoordFromBody p axis ∧
      GetCoordFromBody p axis ≤ (sortedCoords points axis).getD (points.length - 1) 0 := by
  have hlen : (sortedCoords points axis).length = points.length :=
    length_sortedCoords points axis
  have hs := sorted_sortedCoords points axis
  have hmem : GetCoordFromBody p axis ∈ sortedCoords points axis :=
    (perm_sortedCoords points axis).mem_iff.mpr (List.mem_map_of_mem _ hp)
  obtain ⟨i, hi, hvi⟩ := List.getElem_of_mem hmem
  have hgd : (sortedCoords points axis).getD i 0 = GetCoordFromBody p axis := by
    rw [List.getD_eq_getElem _ 0 hi]
    exact hvi
  constructor
  · rw [← hgd]
    exact sorted_getD_mono _ hs 0 i (Nat.zero_le i) hi
  · rw [← hgd]
    exact sorted_getD_mono _ hs i (points.length - 1) (by omega) (by omega)

theorem first_lt_last_of_not_allEq (points : List MassNormalPoint) (axis : ℕ)
    (hne : ¬ allEqOn points axis) (h2 : 2 ≤ points.length) :
    (sortedCoords points axis).getD 0 0 < (sortedCoords points axis).getD (points.length - 1) 0 := by
  unfold allEqOn at hne
  push_neg at hne
  obtain ⟨p, hp, q, hq, hpq⟩ := hne
  have hbp := coord_between points axis p hp
  have hbq := coord_between points axis q hq
  rcases lt_or_eq_of_le (sorted_getD_mono _ (sorted_sortedCoords points axis) 0
      (points.length - 1) (by omega) (by rw [length_sortedCoords]; omega)) with h | h
  · exact h
  · exfalso
    have h1 : GetCoordFromBody p axis = (sortedCoords points axis).getD 0 0 := by
      have hb := hbp.2
      rw [← h] at hb
      exact le_antisymm hb hbp.1
    have h2q : GetCoordFromBody q axis = (sortedCoords points axis).getD 0 0 := by
      have hb := hbq.2
      rw [← h] at hb
      exact le_antisymm hb hbq.1
    exact hpq (h1.trans h2q.symm)

theorem splitIdx_coord_lt_last (points : List MassNormalPoint) (axis : ℕ)
    (hne : ¬ allEqOn points axis) (h2 : 2 ≤ points.length) :
    (sortedCoords points axis).getD (splitIndexOf points axis) 0 <
      (sortedCoords points axis).getD (points.length - 1) 0 := by
  set c := sortedCoords points axis with hc
  set n := points.length with hn
  have hlen : c.length = n := length_sortedCoords points axis
  have hs : c.Sorted (· ≤ ·) := sorted_sortedCoords points axis
  obtain ⟨hidx, hidx1⟩ := splitIndex_le_sub_two points axis h2
  have hP0 : c.getD 0 0 < c.getD (n - 1) 0 := first_lt_last_of_not_allEq points axis hne h2
  set P : ℕ → Prop := fun i => c.getD i 0 < c.getD (n - 1) 0 with hP
  have hm := Nat.findGreatest_spec (P := P) (m := 0) (Nat.zero_le (n - 1)) hP0
  set m : ℕ := Nat.findGreatest P (n - 1) with hmdef
  have hmle : m ≤ n - 1 := Nat.findGreatest_le (n - 1)
  have hmne : m ≠ n - 1 := by
    intro h
    rw [h] at hm
    exact lt_irrefl _ hm
  have hm2 : m ≤ n - 2 := by omega
  have hnotP : ¬ P (m + 1) :=
    Nat.findGreatest_is_greatest (n := n - 1) (k := m + 1) (by omega) (by omega)
  have hsucc_eq : c.getD (m + 1) 0 = c.getD (n - 1) 0 := by
    have hle : c.getD (m + 1) 0 ≤ c.getD (n - 1) 0 :=
      sorted_getD_mono c hs (m + 1) (n - 1) (by omega) (by omega)
    have hge : c.getD (n - 1) 0 ≤ c.getD (m + 1) 0 := not_lt.mp hnotP
    exact le_antisymm hle hge
  have hfm : widthsSq c m = (c.getD m 0 - c.getD 0 0) * (c.getD m 0 - c.getD 0 0) := by
    unfold widthsSq
    rw [if_neg (by omega : ¬ m = c.length - 1)]
    have : c.getD (c.length - 1) 0 - c.getD (m + 1) 0 = 0 := by
      rw [hlen, hsucc_eq]
      ring
    rw [this]
    ring
  have hfm_lt : widthsSq c m <
      (c.getD (n - 1) 0 - c.getD 0 0) * (c.getD (n - 1) 0 - c.getD 0 0) := by
    rw [hfm]
    have h0 : (0:ℚ) ≤ c.getD m 0 - c.getD 0 0 :=
      sub_nonneg.mpr (sorted_getD_mono c hs 0 m (Nat.zero_le m) (by omega))
    have h1 : c.getD m 0 - c.getD 0 0 < c.getD (n - 1) 0 - c.getD 0 0 :=
      sub_lt_sub_right hm _
    nlinarith
  by_contra hcon
  push_neg at hcon
  have heq : c.getD (splitIndexOf points axis) 0 = c.getD (n - 1) 0 :=
    le_antisymm (sorted_getD_mono c hs (splitIndexOf points axis) (n - 1) (by omega) (by omega))
      hcon
  have hfidx : (c.getD (n - 1) 0 - c.getD 0 0) * (c.getD (n - 1) 0 - c.getD 0 0) ≤
      widthsSq c (splitIndexOf points axis) := by
    unfold widthsSq
    rw [heq]
    have : (0:ℚ) ≤ (if splitIndexOf points axis = c.length - 1 then 0
        else c.getD (c.length - 1) 0 - c.getD (splitIndexOf points axis + 1) 0) *
        (if splitIndexOf points axis = c.length - 1 then 0
        else c.getD (c.length - 1) 0 - c.getD (splitIndexOf points axis + 1) 0) :=
      mul_self_nonneg _
    linarith
  have hmin := argminFirst_min (widthsSq c) (n - 1) m hmle
  rw [argminFirst_snd_eq] at hmin
  have hidx_eq : (argminFirst (widthsSq c) (n - 1)).1 = splitIndexOf points axis := by
    rw [splitIndexOf, ← hc, ← hn]
  rw [hidx_eq] at hmin
  linarith

theorem splittingPlane_lt_last (points : List MassNormalPoint) (axis : ℕ)
    (hne : ¬ allEqOn points axis) (h2 : 2 ≤ points.length) :
    AxisSplittingPlane points axis < (sortedCoords points axis).getD (points.length - 1) 0 := by
  have h1 := splitIdx_coord_lt_last points axis hne h2
  obtain ⟨hidx, hidx1⟩ := splitIndex_le_sub_two points axis h2
  have h2' : (sortedCoords points axis).getD (splitIndexOf points axis + 1) 0 ≤
      (sortedCoords points axis).getD (points.length - 1) 0 :=
    sorted_getD_mono _ (sorted_sortedCoords points axis) _ _ (by omega)
      (by rw [length_sortedCoords]; omega)
  unfold AxisSplittingPlane
  linarith

theorem first_le_splittingPlane (points : List MassNormalPoint) (axis : ℕ)
    (h2 : 2 ≤ points.length) :
    (sortedCoords points axis).getD 0 0 ≤ AxisSplittingPlane points axis := by
  obtain ⟨hidx, hidx1⟩ := splitIndex_le_sub_two points axis h2
  have ha : (sortedCoords points axis).getD 0 0 ≤
      (sortedCoords points axis).getD (splitIndexOf points axis) 0 :=
    sorted_getD_mono _ (sorted_sortedCoords points axis) _ _ (Nat.zero_le _)
      (by rw [length_sortedCoords]; omega)
  have hb : (sortedCoords points axis).getD 0 0 ≤
      (sortedCoords points axis).getD (splitIndexOf points axis + 1) 0 :=
    sorted_getD_mono _ (sorted_sortedCoords points axis) _ _ (Nat.zero_le _)
      (by rw [length_sortedCoords]; omega)
  unfold AxisSplittingPlane
  linarith

theorem greaterOf_ne_nil (points : List MassNormalPoint) (axis : ℕ)
    (hne : ¬ allEqOn points axis) (h2 : 2 ≤ points.length) :
    greaterOf points axis ≠ [] := by
  obtain ⟨p, hp, hv⟩ := sortedCoords_getD_mem points axis (points.length - 1) (by omega)
  have hgt : ¬ GetCoordFromBody p axis ≤ AxisSplittingPlane points axis := by
    rw [hv]
    exact not_le.mpr (splittingPlane_lt_last points axis hne h2)
  intro hnil
  have : p ∈ greaterOf points axis := by
    unfold greaterOf
    rw [List.mem_filter]
    exact ⟨hp, by simpa using hgt⟩
  rw [hnil] at this
  exact List.not_mem_nil p this

theorem lesserOf_ne_nil (points : List MassNormalPoint) (axis : ℕ) (h2 : 2 ≤ points.length) :
    lesserOf points axis ≠ [] := by
  obtain ⟨p, hp, hv⟩ := sortedCoords_getD_mem points axis 0 (by omega)
  have hle : GetCoordFromBody p axis ≤ AxisSplittingPlane points axis := by
    rw [hv]
    exact first_le_splittingPlane points axis h2
  intro hnil
  have : p ∈ lesserOf points axis := by
    unfold lesserOf
    rw [List.mem_filter]
    exact ⟨hp, by simpa using hle⟩
  rw [hnil] at this
  exact List.not_mem_nil p this

theorem length_lesser_add_greater (points : List MassNormalPoint) (axis : ℕ) :
    (lesserOf points axis).length + (greaterOf points axis).length = points.length := by
  unfold lesserOf greaterOf
  have hperm := List.filter_append_perm
    (fun p => decide (GetCoordFromBody p axis ≤ AxisSplittingPlane points axis)) points
  have hlen := hperm.length_eq
  rw [List.length_append] at hlen
  simp only [decide_not]
  exact hlen

theorem lesser_length_lt (points : List MassNormalPoint) (axis : ℕ)
    (hne : ¬ allEqOn points axis) (h2 : 2 ≤ points.length) :
    (lesserOf points axis).length < points.length ∧
      (greaterOf points axis).length < points.length := by
  have hsum := length_lesser_add_greater points axis
  have hg : (greaterOf points axis).length ≠ 0 :=
    fun h => greaterOf_ne_nil points axis hne h2 (List.length_eq_zero.mp h)
  have hl : (lesserOf points axis).length ≠ 0 :=
    fun h => lesserOf_ne_nil points axis h2 (List.length_eq_zero.mp h)
  omega

/-- Staleness: how many consecutive axes (starting at the current one) see
all bodies at a single coordinate.  With pairwise-distinct barycenters this
is at most 2, and it decreases when an all-equal split recurses without
shrinking the point set. -/
def staleness (points : List MassNormalPoint) (axis : ℕ) : ℕ :=
  if allEqOn points axis then (if allEqOn points (NextAxis axis) then 2 else 1) else 0

theorem staleness_le_two (points : List MassNormalPoint) (axis : ℕ) :
    staleness points axis ≤ 2 := by
  unfold staleness
  split
  · split
    · exact le_refl 2
    · omega
  · omega

theorem nextAxis_lt_three (axis : ℕ) (h : axis < 3) : NextAxis axis < 3 := by
  interval_cases axis <;> simp [NextAxis]

theorem not_allEq_all_three (points : List MassNormalPoint) (axis : ℕ) (h3 : axis < 3)
    (hdist : points.Pairwise (fun p q => p.point ≠ q.point)) (h2 : 2 ≤ points.length) :
    ¬ (allEqOn points axis ∧ allEqOn points (NextAxis axis) ∧
        allEqOn points (NextAxis (NextAxis axis))) := by
  rintro ⟨h0, h1, h2'⟩
  match points, h2 with
  | p :: q :: rest, _ =>
    have hpq : p.point ≠ q.point := (List.pairwise_cons.mp hdist).1 q (by simp)
    have hp : p ∈ p :: q :: rest := by simp
    have hq : q ∈ p :: q :: rest := by simp
    apply hpq
    have e0 := h0 p hp q hq
    have e1 := h1 p hp q hq
    have e2 := h2' p hp q hq
    have haxes : (GetCoordFromBody p 0 = GetCoordFromBody q 0 ∧
        GetCoordFromBody p 1 = GetCoordFromBody q 1 ∧
        GetCoordFromBody p 2 = GetCoordFromBody q 2) := by
      interval_cases axis
      · exact ⟨e0, e1, e2⟩
      · exact ⟨e2, e0, e1⟩
      · exact ⟨e1, e2, e0⟩
    obtain ⟨ex, ey, ez⟩ := haxes
    simp only [GetCoordFromBody] at ex ey ez
    have hpeta : p.point = ⟨p.point.x, p.point.y, p.point.z⟩ := rfl
    have hqeta : q.point = ⟨q.point.x, q.point.y, q.point.z⟩ := rfl
    rw [hpeta, hqeta, ex, ey, ez]

theorem staleness_next (points : List MassNormalPoint) (axis : ℕ) (h3 : axis < 3)
    (hdist : points.Pairwise (fun p q => p.point ≠ q.point)) (h2 : 2 ≤ points.length)
    (hall : allEqOn points axis) :
    staleness points (NextAxis axis) + 1 = staleness points axis := by
  have hnot3 := not_allEq_all_three points axis h3 hdist h2
  unfold staleness
  rw [if_pos hall]
  by_cases hn : allEqOn points (NextAxis axis)
  · rw [if_pos hn, if_pos hn]
    have : ¬ allEqOn points (NextAxis (NextAxis axis)) := fun h => hnot3 ⟨hall, hn, h⟩
    rw [if_neg this]
  · rw [if_neg hn, if_neg hn]

theorem buildBVH_nil_isSome (fuel : ℕ) (axis : ℕ) (h : 1 ≤ fuel) :
    (buildBVH fuel [] axis).isSome := by
  match fuel, h with
  | f + 1, _ => simp [buildBVH]

theorem buildBVH_cons_eq (fuel : ℕ) (p1 p2 : MassNormalPoint) (rest : List MassNormalPoint)
    (axis : ℕ) :
    buildBVH (fuel + 1) (p1 :: p2 :: rest) axis =
      match buildBVH fuel (lesserOf (p1 :: p2 :: rest) axis) (NextAxis axis),
          buildBVH fuel (greaterOf (p1 :: p2 :: rest) axis) (NextAxis axis) with
      | some l, some g =>
        some (.interiorNode (averageDataFromChildren axis
          (AxisSplittingPlane (p1 :: p2 :: rest) axis) l g) l g)
      | _, _ => none := rfl

theorem buildBVH_isSome (fuel : ℕ) :
    ∀ (points : List MassNormalPoint) (axis : ℕ), axis < 3 →
      points.Pairwise (fun p q => p.point ≠ q.point) →
      3 * points.length + staleness points axis < fuel →
      (buildBVH fuel points axis).isSome := by
  induction fuel with
  | zero =>
    intro points axis _ _ hm
    omega
  | succ fuel ih =>
    intro points axis h3 hdist hm
    rcases points with _ | ⟨p1, _ | ⟨p2, rest⟩⟩
    · simp [buildBVH]
    · simp [buildBVH]
    · have h2 : 2 ≤ (p1 :: p2 :: rest).length := by simp
      have h3' : NextAxis axis < 3 := nextAxis_lt_three axis h3
      rw [buildBVH_cons_eq]
      by_cases hall : allEqOn (p1 :: p2 :: rest) axis
      · have hst1 : 1 ≤ staleness (p1 :: p2 :: rest) axis := by
          unfold staleness
          rw [if_pos hall]
          split <;> omega
        have hles : lesserOf (p1 :: p2 :: rest) axis = p1 :: p2 :: rest :=
          lesserOf_allEq _ axis hall h2
        have hgre : greaterOf (p1 :: p2 :: rest) axis = [] := greaterOf_allEq _ axis hall h2
        have hmeas : 3 * (p1 :: p2 :: rest).length +
            staleness (p1 :: p2 :: rest) (NextAxis axis) < fuel := by
          have := staleness_next (p1 :: p2 :: rest) axis h3 hdist h2 hall
          omega
        obtain ⟨l, hl⟩ := Option.isSome_iff_exists.mp
          (ih (p1 :: p2 :: rest) (NextAxis axis) h3' hdist hmeas)
        obtain ⟨g, hg⟩ := Option.isSome_iff_exists.mp
          (buildBVH_nil_isSome fuel (NextAxis axis) (by omega))
        rw [hles, hgre, hl, hg]
        rfl
      · obtain ⟨hlt1, hlt2⟩ := lesser_length_lt (p1 :: p2 :: rest) axis hall h2
        have hsub1 : (lesserOf (p1 :: p2 :: rest) axis).Sublist (p1 :: p2 :: rest) :=
          List.filter_sublist _
        have hsub2 : (greaterOf (p1 :: p2 :: rest) axis).Sublist (p1 :: p2 :: rest) :=
          List.filter_sublist _
        have hm1 : 3 * (lesserOf (p1 :: p2 :: rest) axis).length +
            staleness (lesserOf (p1 :: p2 :: rest) axis) (NextAxis axis) < fuel := by
          have := staleness_le_two (lesserOf (p1 :: p2 :: rest) axis) (NextAxis axis)
          omega
        have hm2 : 3 * (greaterOf (p1 :: p2 :: rest) axis).length +
            staleness (greaterOf (p1 :: p2 :: rest) axis) (NextAxis axis) < fuel := by
          have := staleness_le_two (greaterOf (p1 :: p2 :: rest) axis) (NextAxis axis)
          omega
        obtain ⟨l, hl⟩ := Option.isSome_iff_exists.mp
          (ih (lesserOf (p1 :: p2 :: rest) axis) (NextAxis axis) h3' (hdist.sublist hsub1) hm1)
        obtain ⟨g, hg⟩ := Option.isSome_iff_exists.mp
          (ih (greaterOf (p1 :: p2 :: rest) axis) (NextAxis axis) h3' (hdist.sublist hsub2) hm2)
        rw [hl, hg]
        rfl

/-- C9.  The `BVHNode6D` constructor terminates on every body list whose
barycenters are pairwise distinct: fuel `3·n + 3` always suffices for the
build started at axis 0, because a split either strictly shrinks the point
set on both sides or passes the unchanged set to the next of the three
position axes, and distinct barycenters cannot agree on all three. -/
theorem buildBVH_terminates (points : List MassNormalPoint)
    (hdist : points.Pairwise (fun p q => p.point ≠ q.point)) :
    (buildBVH (3 * points.length + 3) points 0).isSome :=
  buildBVH_isSome _ points 0 (by norm_num) hdist
    (by have := staleness_le_two points 0; omega)

/-- Witness for C9 at the concrete body list. -/
theorem buildBVH_terminates_witness :
    (buildBVH (3 * exBodies.length + 3) exBodies 0).isSome :=
  buildBVH_terminates exBodies (by decide)

theorem nextAxis_mod3 (a : ℕ) (h : a < 3) : NextAxis a = (a + 1) % 3 := by
  interval_cases a <;> rfl

theorem buildBVH_root_axis (fuel : ℕ) (points : List MassNormalPoint) (axis : ℕ)
    (t : BVHNode6D) (h : buildBVH fuel points axis = some t) :
    t.dataOf.splitAxis = axis := by
  match fuel, points with
  | 0, _ => simp [buildBVH] at h
  | fuel + 1, [] =>
    simp only [buildBVH] at h
    cases h
    rfl
  | fuel + 1, [mp] =>
    simp only [buildBVH] at h
    cases h
    rfl
  | fuel + 1, p1 :: p2 :: rest =>
    rw [buildBVH_cons_eq] at h
    cases hbl : buildBVH fuel (lesserOf (p1 :: p2 :: rest) axis) (NextAxis axis) with
    | none => rw [hbl] at h; simp at h
    | some l =>
      cases hbg : buildBVH fuel (greaterOf (p1 :: p2 :: rest) axis) (NextAxis axis) with
      | none => rw [hbl, hbg] at h; simp at h
      | some g =>
        rw [hbl, hbg] at h
        simp only [Option.some.injEq] at h
        rw [← h]
        rfl

theorem buildBVH_axes (fuel : ℕ) :
    ∀ (points : List MassNormalPoint) (axis : ℕ) (t : BVHNode6D), axis < 3 →
      buildBVH fuel points axis = some t →
      ∀ s ∈ t.subtrees, s.dataOf.splitAxis < 3 ∧
        ∀ c ∈ s.childrenOf, c.dataOf.splitAxis = (s.dataOf.splitAxis + 1) % 3 := by
  induction fuel with
  | zero =>
    intro points axis t _ h
    simp [buildBVH] at h
  | succ fuel ih =>
    intro points axis t h3 h
    match points with
    | [] =>
      simp only [buildBVH] at h
      cases h
      intro s hs
      simp only [BVHNode6D.subtrees, List.mem_singleton] at hs
      subst hs
      exact ⟨h3, by simp [BVHNode6D.childrenOf]⟩
    | [mp] =>
      simp only [buildBVH] at h
      cases h
      intro s hs
      simp only [BVHNode6D.subtrees, List.mem_singleton] at hs
      subst hs
      exact ⟨h3, by simp [BVHNode6D.childrenOf]⟩
    | p1 :: p2 :: rest =>
      rw [buildBVH_cons_eq] at h
      cases hbl : buildBVH fuel (lesserOf (p1 :: p2 :: rest) axis) (NextAxis axis) with
      | none => rw [hbl] at h; simp at h
      | some l =>
        cases hbg : buildBVH fuel (greaterOf (p1 :: p2 :: rest) axis) (NextAxis axis) with
        | none => rw [hbl, hbg] at h; simp at h
        | some g =>
          rw [hbl, hbg] at h
          simp only [Option.some.injEq] at h
          subst h
          intro s hs
          have h3' : NextAxis axis < 3 := nextAxis_lt_three axis h3
          simp only [BVHNode6D.subtrees, List.mem_cons, List.mem_append] at hs
          rcases hs with hs | hs | hs
          · subst hs
            refine ⟨h3, ?_⟩
            intro c hc
            simp only [BVHNode6D.childrenOf, List.mem_cons, List.mem_singleton] at hc
            have haxis : (BVHNode6D.interiorNode (averageDataFromChildren axis
                (AxisSplittingPlane (p1 :: p2 :: rest) axis) l g) l g).dataOf.splitAxis =
                axis := rfl
            rw [haxis]
            rcases hc with hc | hc
            · subst hc
              rw [buildBVH_root_axis fuel _ _ _ hbl]
              exact nextAxis_mod3 axis h3
            · rcases hc with hc | hfalse
              · subst hc
                rw [buildBVH_root_axis fuel _ _ _ hbg]
                exact nextAxis_mod3 axis h3
              · exact absurd hfalse (List.not_mem_nil c)
          · exact ih _ (NextAxis axis) l h3' hbl s hs
          · exact ih _ (NextAxis axis) g h3' hbg s hs

/-- C1 (amended).  In every BVH built from axis 0 (as `Create6DBVHFromMesh`
does), the split axis of every node lies in 0..2 and advances as
`(splitAxis + 1) mod 3` from a node to each of its children: only the three
position axes are cycled; the normal axes 3–5 are never used as split axes. -/
theorem splitAxis_cycles_mod3 (fuel : ℕ) (points : List MassNormalPoint) (t : BVHNode6D)
    (h : buildBVH fuel points 0 = some t) :
    ∀ s ∈ t.subtrees, s.dataOf.splitAxis < 3 ∧
      ∀ c ∈ s.childrenOf, c.dataOf.splitAxis = (s.dataOf.splitAxis + 1) % 3 :=
  buildBVH_axes fuel points 0 t (by norm_num) h

/-- True when some node of the tree has a child whose split axis differs
from `(splitAxis + 1) mod 6`: the configuration claimed impossible. -/
def violatesMod6 (t : BVHNode6D) : Bool :=
  t.subtrees.any (fun s => s.childrenOf.any
    (fun c => ¬ c.dataOf.splitAxis = (s.dataOf.splitAxis + 1) % 6))

/-- Leaf of face 0 in the concrete build. -/
def exLeafA : BVHNode6D :=
  .leafNode
    { totalMass := 1, centerOfMass := ⟨0, 0, 0⟩, minCoords := ⟨0, 0, 0⟩,
      maxCoords := ⟨0, 0, 0⟩, elementID := 0, splitAxis := 0, splitPoint := 0,
      numNodesInBranch := 1, nodeID := 0 }

/-- Leaf of face 1 in the concrete build. -/
def exLeafB : BVHNode6D :=
  .leafNode
    { totalMass := 1, centerOfMass := ⟨1, 1, 1⟩, minCoords := ⟨1, 1, 1⟩,
      maxCoords := ⟨1, 1, 1⟩, elementID := 1, splitAxis := 0, splitPoint := 0,
      numNodesInBranch := 1, nodeID := 0 }

/-- Leaf of face 2 in the concrete build. -/
def exLeafC : BVHNode6D :=
  .leafNode
    { totalMass := 1, centerOfMass := ⟨2, 2, 2⟩, minCoords := ⟨2, 2, 2⟩,
      maxCoords := ⟨2, 2, 2⟩, elementID := 2, splitAxis := 0, splitPoint := 0,
      numNodesInBranch := 1, nodeID := 0 }

/-- Leaf of face 3 in the concrete build. -/
def exLeafD : BVHNode6D :=
  .leafNode
    { totalMass := 1, centerOfMass := ⟨3, 3, 3⟩, minCoords := ⟨3, 3, 3⟩,
      maxCoords := ⟨3, 3, 3⟩, elementID := 3, splitAxis := 0, splitPoint := 0,
      numNodesInBranch := 1, nodeID := 0 }

/-- Leaf of face 4 in the concrete build. -/
def exLeafE : BVHNode6D :=
  .leafNode
    { totalMass := 1, centerOfMass := ⟨100, 100, 100⟩, minCoords := ⟨100, 100, 100⟩,
      maxCoords := ⟨100, 100, 100⟩, elementID := 4, splitAxis := 1, splitPoint := 0,
      numNodesInBranch := 1, nodeID := 0 }

/-- The split-axis-2 node over faces 0 and 1. -/
def exSubLL : BVHNode6D :=
  .interiorNode
    { totalMass := 2, centerOfMass := ⟨1/2, 1/2, 1/2⟩, minCoords := ⟨0, 0, 0⟩,
      maxCoords := ⟨1, 1, 1⟩, elementID := -1, splitAxis := 2, splitPoint := 1/2,
      numNodesInBranch := 3, nodeID := 0 }
    exLeafA exLeafB

/-- The split-axis-2 node over faces 2 and 3. -/
def exSubLG : BVHNode6D :=
  .interiorNode
    { totalMass := 2, centerOfMass := ⟨5/2, 5/2, 5/2⟩, minCoords := ⟨2, 2, 2⟩,
      maxCoords := ⟨3, 3, 3⟩, elementID := -1, splitAxis := 2, splitPoint := 5/2,
      numNodesInBranch := 3, nodeID := 0 }
    exLeafC exLeafD

/-- The split-axis-1 node over faces 0–3. -/
def exSubL : BVHNode6D :=
  .interiorNode
    { totalMass := 4, centerOfMass := ⟨3/2, 3/2, 3/2⟩, minCoords := ⟨0, 0, 0⟩,
      maxCoords := ⟨3, 3, 3⟩, elementID := -1, splitAxis := 1, splitPoint := 3/2,
      numNodesInBranch := 7, nodeID := 0 }
    exSubLL exSubLG

/-- The BVH the source builds from `exBodies` (before ID assignment),
checked below against `buildBVH`. -/
def exTree : BVHNode6D :=
  .interiorNode
    { totalMass := 5, centerOfMass := ⟨106/5, 106/5, 106/5⟩, minCoords := ⟨0, 0, 0⟩,
      maxCoords := ⟨100, 100, 100⟩, elementID := -1, splitAxis := 0, splitPoint := 103/2,
      numNodesInBranch := 9, nodeID := 0 }
    exSubL exLeafE

set_option maxRecDepth 8000

theorem exTree_eq : buildBVH 18 exBodies 0 = some exTree := by
  norm_num [buildBVH, lesserOf, greaterOf, AxisSplittingPlane, splitIndexOf, argminFirst,
    widthsSq, sortedCoords, GetCoordFromBody, NextAxis, exBodies, averageDataFromChildren,
    emptyData, leafData, vectorMin, vectorMax, Vector3.scale, Vector3.add, BVHNode6D.dataOf,
    List.insertionSort, List.orderedInsert, exTree, exSubL, exSubLL, exSubLG, exLeafA,
    exLeafB, exLeafC, exLeafD, exLeafE]

/-- C1 (counterexample).  On the concrete five-body input the build
produces a node with split axis 2 whose children carry split axis 0, not
`(2 + 1) mod 6 = 3`: the constructor does not advance the split axis modulo
6 and never reaches the normal axes. -/
theorem splitAxis_mod6_counterexample :
    (buildBVH 18 exBodies 0).map violatesMod6 = some true := by
  rw [exTree_eq]
  norm_num [exTree, exSubL, exSubLL, exSubLG, exLeafA, exLeafB, exLeafC, exLeafD, exLeafE,
    violatesMod6, BVHNode6D.subtrees, BVHNode6D.childrenOf, BVHNode6D.dataOf]

/-- Witness for the amended C1 at the concrete body list, instantiated at
the split-axis-2 node and its first (leaf) child, whose split axis is 0. -/
theorem splitAxis_cycles_mod3_witness :
    exSubLL.dataOf.splitAxis < 3 ∧
      exLeafA.dataOf.splitAxis = (exSubLL.dataOf.splitAxis + 1) % 3 :=
  ⟨(splitAxis_cycles_mod3 18 exBodies exTree exTree_eq exSubLL
      (by simp [exTree, exSubL, exSubLL, BVHNode6D.subtrees])).1,
    (splitAxis_cycles_mod3 18 exBodies exTree exTree_eq exSubLL
      (by simp [exTree, exSubL, exSubLL, BVHNode6D.subtrees])).2 exLeafA
      (by simp [exSubLL, BVHNode6D.childrenOf])⟩

/-- Total mass of a list of leaf records. -/
def massSum (l : List NodeData) : ℚ := (l.map (fun d => d.totalMass)).sum

/-- Mass-weighted sum of leaf barycenters, componentwise. -/
def momentSum (l : List NodeData) : Vector3 :=
  ⟨(l.map (fun d => d.totalMass * d.centerOfMass.x)).sum,
    (l.map (fun d => d.totalMass * d.centerOfMass.y)).sum,
    (l.map (fun d => d.totalMass * d.centerOfMass.z)).sum⟩

theorem massSum_append (a b : List NodeData) : massSum (a ++ b) = massSum a + massSum b := by
  unfold massSum
  rw [List.map_append, List.sum_append]

theorem momentSum_append (a b : List NodeData) :
    momentSum (a ++ b) = (momentSum a).add (momentSum b) := by
  unfold momentSum Vector3.add
  simp [List.map_append, List.sum_append]

theorem self_mem_subtrees (t : BVHNode6D) : t ∈ t.subtrees := by
  cases t <;> simp [BVHNode6D.subtrees]

theorem lesser_append_greater_perm (points : List MassNormalPoint) (axis : ℕ) :
    List.Perm (lesserOf points axis ++ greaterOf points axis) points := by
  have h := List.filter_append_perm
    (fun p => decide (GetCoordFromBody p axis ≤ AxisSplittingPlane points axis)) points
  unfold lesserOf greaterOf
  simp only [decide_not]
  exact h

/-- The triple of (mass, barycenter, id) over leaves of a built tree is a
permutation of the same data over the input bodies. -/
theorem buildBVH_leaves_perm (fuel : ℕ) :
    ∀ (points : List MassNormalPoint) (axis : ℕ) (t : BVHNode6D),
      buildBVH fuel points axis = some t →
      List.Perm (t.leaves.map (fun d => (d.totalMass, d.centerOfMass, d.elementID)))
        (points.map (fun p => (p.mass, p.point, p.elementID))) := by
  induction fuel with
  | zero =>
    intro points axis t h
    simp [buildBVH] at h
  | succ fuel ih =>
    intro points axis t h
    match points with
    | [] =>
      simp only [buildBVH] at h
      cases h
      simp [BVHNode6D.leaves]
    | [mp] =>
      simp only [buildBVH] at h
      cases h
      simp [BVHNode6D.leaves, leafData]
    | p1 :: p2 :: rest =>
      rw [buildBVH_cons_eq] at h
      cases hbl : buildBVH fuel (lesserOf (p1 :: p2 :: rest) axis) (NextAxis axis) with
      | none => rw [hbl] at h; simp at h
      | some l =>
        cases hbg : buildBVH fuel (greaterOf (p1 :: p2 :: rest) axis) (NextAxis axis) with
        | none => rw [hbl, hbg] at h; simp at h
        | some g =>
          rw [hbl, hbg] at h
          simp only [Option.some.injEq] at h
          subst h
          have hl := ih _ _ _ hbl
          have hg := ih _ _ _ hbg
          have happ := hl.append hg
          rw [← List.map_append, ← List.map_append] at happ
          exact happ.trans ((lesser_append_greater_perm (p1 :: p2 :: rest) axis).map _)

theorem buildBVH_massSum (fuel : ℕ) (points : List MassNormalPoint) (axis : ℕ)
    (t : BVHNode6D) (h : buildBVH fuel points axis = some t) :
    massSum t.leaves = (points.map (fun p => p.mass)).sum := by
  have hperm := (buildBVH_leaves_perm fuel points axis t h).map (fun x => x.1)
  rw [List.map_map, List.map_map] at hperm
  unfold massSum
  exact hperm.sum_eq

theorem buildBVH_massSum_pos (fuel : ℕ) (points : List MassNormalPoint) (axis : ℕ)
    (t : BVHNode6D) (h : buildBVH fuel points axis = some t)
    (hpos : ∀ p ∈ points, 0 < p.mass) (hne : points ≠ []) : 0 < massSum t.leaves := by
  rw [buildBVH_massSum fuel points axis t h]
  apply List.sum_pos
  · intro x hx
    obtain ⟨p, hp, hval⟩ := List.mem_map.mp hx
    rw [← hval]
    exact hpos p hp
  · intro hmapnil
    exact hne (List.map_eq_nil_iff.mp hmapnil)

theorem scale_scale (a b : ℚ) (v : Vector3) :
    Vector3.scale a (Vector3.scale b v) = Vector3.scale (a * b) v := by
  unfold Vector3.scale
  simp only [Vector3.mk.injEq]
  refine ⟨by ring, by ring, by ring⟩

theorem scale_one (v : Vector3) : Vector3.scale 1 v = v := by
  cases v
  unfold Vector3.scale
  simp only [Vector3.mk.injEq]
  refine ⟨by ring, by ring, by ring⟩

theorem scale_inv_cancel (m : ℚ) (hm : m ≠ 0) (v : Vector3) :
    Vector3.scale m (Vector3.scale (1 / m) v) = v := by
  rw [scale_scale]
  have h1 : m * (1 / m) = 1 := by field_simp
  rw [h1]
  exact scale_one v

theorem scale_inv_cancel_left (m : ℚ) (hm : m ≠ 0) (v : Vector3) :
    Vector3.scale (1 / m) (Vector3.scale m v) = v := by
  rw [scale_scale]
  have h1 : 1 / m * m = 1 := by field_simp
  rw [h1]
  exact scale_one v

/-- C6.  In every tree built by the `BVHNode6D` constructor from bodies of
positive mass (face areas), every node satisfies, in exact arithmetic:
its `totalMass` is the sum of the masses of its leaf descendants, its
first moment `totalMass · centerOfMass` is the mass-weighted sum of the
leaf barycenters, and every node with at least one leaf descendant has
`centerOfMass` equal to the mass-weighted mean of those barycenters.
Empty nodes carry mass 0 and moment 0, matching the empty sums. -/
theorem bvh_mass_center_invariant (fuel : ℕ) :
    ∀ (points : List MassNormalPoint) (axis : ℕ) (t : BVHNode6D),
      buildBVH fuel points axis = some t → (∀ p ∈ points, 0 < p.mass) →
      ∀ s ∈ t.subtrees,
        s.dataOf.totalMass = massSum s.leaves ∧
        Vector3.scale s.dataOf.totalMass s.dataOf.centerOfMass = momentSum s.leaves ∧
        (s.leaves ≠ [] →
          s.dataOf.centerOfMass = Vector3.scale (1 / massSum s.leaves) (momentSum s.leaves)) := by
  induction fuel with
  | zero =>
    intro points axis t h
    simp [buildBVH] at h
  | succ fuel ih =>
    intro points axis t h hpos
    match points with
    | [] =>
      simp only [buildBVH] at h
      cases h
      intro s hs
      simp only [BVHNode6D.subtrees, List.mem_singleton] at hs
      subst hs
      refine ⟨by simp [BVHNode6D.dataOf, emptyData, BVHNode6D.leaves, massSum], ?_, ?_⟩
      · simp [BVHNode6D.dataOf, emptyData, BVHNode6D.leaves, momentSum, Vector3.scale]
      · intro hne
        exact absurd rfl hne
    | [mp] =>
      simp only [buildBVH] at h
      cases h
      intro s hs
      simp only [BVHNode6D.subtrees, List.mem_singleton] at hs
      subst hs
      have hmp : 0 < mp.mass := hpos mp (by simp)
      refine ⟨by simp [BVHNode6D.dataOf, leafData, BVHNode6D.leaves, massSum], ?_, ?_⟩
      · simp [BVHNode6D.dataOf, leafData, BVHNode6D.leaves, momentSum, Vector3.scale]
      · intro _
        have hmass : massSum (BVHNode6D.leafNode (leafData axis mp)).leaves = mp.mass := by
          simp [BVHNode6D.leaves, leafData, massSum]
        rw [hmass]
        have hmom : momentSum (BVHNode6D.leafNode (leafData axis mp)).leaves =
            Vector3.scale mp.mass mp.point := by
          simp [BVHNode6D.leaves, leafData, momentSum, Vector3.scale]
        rw [hmom, scale_inv_cancel_left mp.mass (ne_of_gt hmp)]
        rfl
    | p1 :: p2 :: rest =>
      rw [buildBVH_cons_eq] at h
      cases hbl : buildBVH fuel (lesserOf (p1 :: p2 :: rest) axis) (NextAxis axis) with
      | none => rw [hbl] at h; simp at h
      | some l =>
        cases hbg : buildBVH fuel (greaterOf (p1 :: p2 :: rest) axis) (NextAxis axis) with
        | none => rw [hbl, hbg] at h; simp at h
        | some g =>
          rw [hbl, hbg] at h
          simp only [Option.some.injEq] at h
          subst h
          have hposl : ∀ p ∈ lesserOf (p1 :: p2 :: rest) axis, 0 < p.mass :=
            fun p hp => hpos p ((List.filter_sublist _).mem hp)
          have hposg : ∀ p ∈ greaterOf (p1 :: p2 :: rest) axis, 0 < p.mass :=
            fun p hp => hpos p ((List.filter_sublist _).mem hp)
          intro s hs
          simp only [BVHNode6D.subtrees, List.mem_cons, List.mem_append] at hs
          rcases hs with hs | hs | hs
          · subst hs
            obtain ⟨hml, hcl, _⟩ := ih _ _ _ hbl hposl l (self_mem_subtrees l)
            obtain ⟨hmg, hcg, _⟩ := ih _ _ _ hbg hposg g (self_mem_subtrees g)
            set d := averageDataFromChildren axis
              (AxisSplittingPlane (p1 :: p2 :: rest) axis) l g with hd
            have hleaves : (BVHNode6D.interiorNode d l g).leaves = l.leaves ++ g.leaves := rfl
            have hmass : (BVHNode6D.interiorNode d l g).dataOf.totalMass =
                massSum (BVHNode6D.interiorNode d l g).leaves := by
              rw [hleaves, massSum_append]
              show l.dataOf.totalMass + g.dataOf.totalMass = _
              rw [hml, hmg]
            have htotpos : 0 < massSum (BVHNode6D.interiorNode d l g).leaves := by
              apply buildBVH_massSum_pos (fuel + 1) (p1 :: p2 :: rest) axis _ ?_ hpos (by simp)
              rw [buildBVH_cons_eq, hbl, hbg]
            have hmne : (BVHNode6D.interiorNode d l g).dataOf.totalMass ≠ 0 := by
              rw [hmass]
              exact ne_of_gt htotpos
            have hmoment : momentSum (BVHNode6D.interiorNode d l g).leaves =
                (Vector3.scale l.dataOf.totalMass l.dataOf.centerOfMass).add
                  (Vector3.scale g.dataOf.totalMass g.dataOf.centerOfMass) := by
              rw [hleaves, momentSum_append, hcl, hcg]
            have hcenter : (BVHNode6D.interiorNode d l g).dataOf.centerOfMass =
                Vector3.scale (1 / (BVHNode6D.interiorNode d l g).dataOf.totalMass)
                  ((Vector3.scale l.dataOf.totalMass l.dataOf.centerOfMass).add
                    (Vector3.scale g.dataOf.totalMass g.dataOf.centerOfMass)) := rfl
            refine ⟨hmass, ?_, ?_⟩
            · rw [hcenter, scale_inv_cancel _ hmne, hmoment]
            · intro _
              rw [hcenter, hmoment, hmass]
          · exact ih _ _ _ hbl hposl s hs
          · exact ih _ _ _ hbg hposg s hs

/-- Witness for C6 at the concrete body list, instantiated at the root node. -/
theorem bvh_mass_center_invariant_witness :
    exTree.dataOf.totalMass = massSum exTree.leaves ∧
    Vector3.scale exTree.dataOf.totalMass exTree.dataOf.centerOfMass =
      momentSum exTree.leaves ∧
    (exTree.leaves ≠ [] →
      exTree.dataOf.centerOfMass =
        Vector3.scale (1 / massSum exTree.leaves) (momentSum exTree.leaves)) :=
  bvh_mass_center_invariant 18 exBodies 0 exTree exTree_eq (by decide) exTree
    (self_mem_subtrees exTree)

/-- An ordered pair of clusters (BVH nodes), `ClusterPair` of the missing
`block_cluster_tree.h` header. -/
abbrev ClusterPair : Type := BVHNode6D × BVHNode6D

def centerOf (t : BVHNode6D) : Vector3 := t.dataOf.centerOfMass

/-- Modelled from the spec: `BVHNode6D::boxContainsPoint` (header
`spatial/bvh_6d.h` is not among the sources); the box `[minCoords,
maxCoords]` contains the point componentwise. -/
def boxContainsPoint (t : BVHNode6D) (p : Vector3) : Prop :=
  t.dataOf.minCoords.x ≤ p.x ∧ p.x ≤ t.dataOf.maxCoords.x ∧
    t.dataOf.minCoords.y ≤ p.y ∧ p.y ≤ t.dataOf.maxCoords.y ∧
    t.dataOf.minCoords.z ≤ p.z ∧ p.z ≤ t.dataOf.maxCoords.z

instance (t : BVHNode6D) (p : Vector3) : Decidable (boxContainsPoint t p) := by
  unfold boxContainsPoint
  infer_instance

/-- Squared norm of the bounding-box diagonal `maxCoords − minCoords`. -/
def diagNormSq (t : BVHNode6D) : ℚ :=
  Vector3.normSq (t.dataOf.maxCoords.sub t.dataOf.minCoords)

/-- Modelled from the spec: `nodeRatio(d) < theta` of the missing
`spatial/bvh_6d.h` header, i.e. `diag(bounds).norm() / d < theta`, stated in
the equivalent squared form `diag.normSq < theta² · d²` (valid for the
nonnegative `theta` the program uses; both sides of the original comparison
are nonnegative, and a zero distance makes both forms false). -/
def nodeRatioLt (t : BVHNode6D) (dSq : ℚ) (θ : ℚ) : Prop :=
  diagNormSq t < θ ^ 2 * dSq

instance (t : BVHNode6D) (dSq θ : ℚ) : Decidable (nodeRatioLt t dSq θ) := by
  unfold nodeRatioLt
  infer_instance

/-- `BlockClusterTree::isPairAdmissible`: never admissible with itself
(pointer equality, which on an ID-assigned tree is node-ID equality), never
admissible when either box contains the other's center of mass, otherwise
admissible iff both Barnes–Hut ratios are strictly below `theta`. -/
def isPairAdmissible (θ : ℚ) (p : ClusterPair) : Prop :=
  p.1.dataOf.nodeID ≠ p.2.dataOf.nodeID ∧
    ¬ boxContainsPoint p.1 (centerOf p.2) ∧ ¬ boxContainsPoint p.2 (centerOf p.1) ∧
    nodeRatioLt p.1 (distSq (centerOf p.1) (centerOf p.2)) θ ∧
    nodeRatioLt p.2 (distSq (centerOf p.1) (centerOf p.2)) θ

instance (θ : ℚ) (p : ClusterPair) : Decidable (isPairAdmissible θ p) := by
  unfold isPairAdmissible
  infer_instance

/-- `BlockClusterTree::isPairSmallEnough`: `|I| ≤ 1` or `|J| ≤ 1` or
`|I| + |J| ≤ 8`. -/
def isPairSmallEnough (p : ClusterPair) : Prop :=
  p.1.nElements ≤ 1 ∨ p.2.nElements ≤ 1 ∨ p.1.nElements + p.2.nElements ≤ 8

instance (p : ClusterPair) : Decidable (isPairSmallEnough p) := by
  unfold isPairSmallEnough
  infer_instance

/-- Outcome of one classification step of the build loop. -/
inductive PairAction where
  | drop
  | inadmissible
  | admissible
  | expand
deriving DecidableEq

/-- The cascade of `BlockClusterTree::splitInadmissibleNodes` for one
unresolved pair, in source order: empty side → drop; singleton × singleton
→ inadmissible; admissible test; small-enough test; otherwise expand. -/
def classifyPair (θ : ℚ) (p : ClusterPair) : PairAction :=
  if p.1.nElements = 0 ∨ p.2.nElements = 0 then .drop
  else if p.1.nElements = 1 ∧ p.2.nElements = 1 then .inadmissible
  else if isPairAdmissible θ p then .admissible
  else if isPairSmallEnough p then .inadmissible
  else .expand

/-- The 2×2 child pairs substituted for an expanded pair, in the source's
loop order.  Expansion is only reached for pairs whose two sides have at
least two elements each, which in a built tree are interior nodes. -/
def expandChildren (p : ClusterPair) : List ClusterPair :=
  match p with
  | (.interiorNode _ l1 g1, .interiorNode _ l2 g2) =>
    [(l1, l2), (l1, g2), (g1, l2), (g1, g2)]
  | _ => []

/-- One pass of `BlockClusterTree::splitInadmissibleNodes` over the
unresolved list: returns the pairs appended to the admissible list, the
pairs appended to the inadmissible list, and the next unresolved list, each
in source traversal order. -/
def splitInadmissibleNodes (θ : ℚ) :
    List ClusterPair → List ClusterPair × List ClusterPair × List ClusterPair
  | [] => ([], [], [])
  | p :: rest =>
    let r := splitInadmissibleNodes θ rest
    match classifyPair θ p with
    | .drop => r
    | .inadmissible => (r.1, p :: r.2.1, r.2.2)
    | .admissible => (p :: r.1, r.2.1, r.2.2)
    | .expand => (r.1, r.2.1, expandChildren p ++ r.2.2)

/-- The `while (unresolvedPairs.size() > 0)` loop of the `BlockClusterTree`
constructor, with fuel; returns the final admissible and inadmissible
lists. -/
def bctLoop (θ : ℚ) : ℕ → List ClusterPair → Option (List ClusterPair × List ClusterPair)
  | 0, [] => some ([], [])
  | 0, _ :: _ => none
  | _ + 1, [] => some ([], [])
  | fuel + 1, p :: rest =>
    match bctLoop θ fuel (splitInadmissibleNodes θ (p :: rest)).2.2 with
    | none => none
    | some r => some ((splitInadmissibleNodes θ (p :: rest)).1 ++ r.1,
        (splitInadmissibleNodes θ (p :: rest)).2.1 ++ r.2)

/-- The pair decomposition built by the `BlockClusterTree` constructor,
starting from the pair `(root, root)`. -/
def bctBuild (θ : ℚ) (fuel : ℕ) (root : BVHNode6D) :
    Option (List ClusterPair × List ClusterPair) :=
  bctLoop θ fuel [(root, root)]

/-- The classification cascade exactly as the specification lists it: each
rule carries the negations of all earlier guards, so at most one rule
applies to a pair and the order of tests is part of the statement. -/
inductive SpecClassifies (θ : ℚ) : ClusterPair → PairAction → Prop where
  | dropEmpty (p : ClusterPair) :
      (p.1.nElements = 0 ∨ p.2.nElements = 0) → SpecClassifies θ p .drop
  | singletonPair (p : ClusterPair) :
      ¬ (p.1.nElements = 0 ∨ p.2.nElements = 0) →
      p.1.nElements = 1 → p.2.nElements = 1 → SpecClassifies θ p .inadmissible
  | admissiblePair (p : ClusterPair) :
      ¬ (p.1.nElements = 0 ∨ p.2.nElements = 0) →
      ¬ (p.1.nElements = 1 ∧ p.2.nElements = 1) →
      isPairAdmissible θ p → SpecClassifies θ p .admissible
  | smallPair (p : ClusterPair) :
      ¬ (p.1.nElements = 0 ∨ p.2.nElements = 0) →
      ¬ (p.1.nElements = 1 ∧ p.2.nElements = 1) →
      ¬ isPairAdmissible θ p →
      (p.1.nElements ≤ 1 ∨ p.2.nElements ≤ 1 ∨ p.1.nElements + p.2.nElements ≤ 8) →
      SpecClassifies θ p .inadmissible
  | expandPair (p : ClusterPair) :
      ¬ (p.1.nElements = 0 ∨ p.2.nElements = 0) →
      ¬ (p.1.nElements = 1 ∧ p.2.nElements = 1) →
      ¬ isPairAdmissible θ p →
      ¬ (p.1.nElements ≤ 1 ∨ p.2.nElements ≤ 1 ∨ p.1.nElements + p.2.nElements ≤ 8) →
      SpecClassifies θ p .expand

/-- C4.  The build loop classifies every unresolved pair exactly by the
specification's rule cascade, in the specification's order: drop a pair
with an empty side; a singleton × singleton pair is inadmissible; then the
pairwise admissibility test (distinct nodes, neither box containing the
other's center of mass, both diagonal-to-distance ratios strictly below
theta); then the small-enough test `|I| ≤ 1 ∨ |J| ≤ 1 ∨ |I|+|J| ≤ 8`;
every remaining pair is expanded into the 2×2 child pairs. -/
theorem classifyPair_follows_spec (θ : ℚ) (p : ClusterPair) :
    SpecClassifies θ p (classifyPair θ p) := by
  unfold classifyPair
  split
  · exact SpecClassifies.dropEmpty p (by assumption)
  · rename_i h0
    split
    · rename_i h1
      exact SpecClassifies.singletonPair p h0 h1.1 h1.2
    · rename_i h1
      split
      · exact SpecClassifies.admissiblePair p h0 h1 (by assumption)
      · rename_i hadm
        split
        · rename_i hsmall
          exact SpecClassifies.smallPair p h0 h1 hadm hsmall
        · rename_i hsmall
          exact SpecClassifies.expandPair p h0 h1 hadm hsmall

/-- The ordered face pair `(f1, f2)` is covered by the cluster pair. -/
def coversB (f1 f2 : ℤ) (p : ClusterPair) : Bool :=
  decide (f1 ∈ p.1.elems ∧ f2 ∈ p.2.elems)

/-- Both sides of the pair list each face at most once. -/
def PairNodup (p : ClusterPair) : Prop := p.1.elems.Nodup ∧ p.2.elems.Nodup

theorem elems_eq_leaves_map (t : BVHNode6D) :
    t.elems = t.leaves.map (fun d => d.elementID) := by
  induction t with
  | emptyNode d => rfl
  | leafNode d => rfl
  | interiorNode d l g ihl ihg =>
    show l.elems ++ g.elems = (l.leaves ++ g.leaves).map _
    rw [List.map_append, ihl, ihg]

theorem nElements_eq_zero_iff (t : BVHNode6D) : t.nElements = 0 ↔ t.elems = [] := by
  unfold BVHNode6D.nElements
  exact List.length_eq_zero

theorem interior_of_two_le (t : BVHNode6D) (h : 2 ≤ t.nElements) :
    ∃ d l g, t = BVHNode6D.interiorNode d l g := by
  cases t with
  | emptyNode d => simp [BVHNode6D.nElements, BVHNode6D.elems] at h
  | leafNode d => simp [BVHNode6D.nElements, BVHNode6D.elems] at h
  | interiorNode d l g => exact ⟨d, l, g, rfl⟩

theorem classify_drop_covers (θ : ℚ) (p : ClusterPair) (f1 f2 : ℤ)
    (h : classifyPair θ p = .drop) : coversB f1 f2 p = false := by
  unfold classifyPair at h
  split at h
  · rename_i h0
    unfold coversB
    rcases h0 with h0 | h0
    · rw [nElements_eq_zero_iff] at h0
      simp [h0]
    · rw [nElements_eq_zero_iff] at h0
      simp [h0]
  · split at h
    · exact absurd h (by simp)
    · split at h
      · exact absurd h (by simp)
      · split at h
        · exact absurd h (by simp)
        · exact absurd h (by simp)

theorem classify_expand_interior (θ : ℚ) (p : ClusterPair)
    (h : classifyPair θ p = .expand) :
    2 ≤ p.1.nElements ∧ 2 ≤ p.2.nElements := by
  unfold classifyPair at h
  split at h
  · exact absurd h (by simp)
  · split at h
    · exact absurd h (by simp)
    · split at h
      · exact absurd h (by simp)
      · split at h
        · exact absurd h (by simp)
        · rename_i hsmall
          unfold isPairSmallEnough at hsmall
          push_neg at hsmall
          omega

theorem countP_expandChildren (θ : ℚ) (p : ClusterPair) (f1 f2 : ℤ)
    (hnd : PairNodup p) (h : classifyPair θ p = .expand) :
    (expandChildren p).countP (coversB f1 f2) = if coversB f1 f2 p then 1 else 0 := by
  obtain ⟨h1, h2⟩ := classify_expand_interior θ p h
  obtain ⟨d1, l1, g1, he1⟩ := interior_of_two_le p.1 h1
  obtain ⟨d2, l2, g2, he2⟩ := interior_of_two_le p.2 h2
  obtain ⟨hnd1, hnd2⟩ := hnd
  rw [he1] at hnd1
  rw [he2] at hnd2
  have hdisj1 : ∀ x, x ∈ l1.elems → x ∈ g1.elems → False := by
    have := (List.nodup_append.mp hnd1).2.2
    intro x hx hy
    exact this hx hy
  have hdisj2 : ∀ x, x ∈ l2.elems → x ∈ g2.elems → False := by
    have := (List.nodup_append.mp hnd2).2.2
    intro x hx hy
    exact this hx hy
  have hexp : expandChildren p = [(l1, l2), (l1, g2), (g1, l2), (g1, g2)] := by
    have : p = (p.1, p.2) := rfl
    rw [this, he1, he2]
    rfl
  have hcov : coversB f1 f2 p = decide ((f1 ∈ l1.elems ∨ f1 ∈ g1.elems) ∧
      (f2 ∈ l2.elems ∨ f2 ∈ g2.elems)) := by
    unfold coversB
    rw [he1, he2]
    simp [BVHNode6D.elems]
  rw [hexp, hcov]
  simp only [List.countP_cons, List.countP_nil, coversB]
  by_cases a1 : f1 ∈ l1.elems <;> by_cases a2 : f1 ∈ g1.elems <;>
    by_cases b1 : f2 ∈ l2.elems <;> by_cases b2 : f2 ∈ g2.elems <;>
    first
      | exact (hdisj1 f1 a1 a2).elim
      | exact (hdisj2 f2 b1 b2).elim
      | simp [a1, a2, b1, b2]

theorem pairNodup_expandChildren (p : ClusterPair) (hnd : PairNodup p) :
    ∀ q ∈ expandChildren p, PairNodup q := by
  intro q hq
  obtain ⟨hnd1, hnd2⟩ := hnd
  obtain ⟨t1, t2⟩ := p
  cases t1 with
  | emptyNode d => simp [expandChildren] at hq
  | leafNode d => simp [expandChildren] at hq
  | interiorNode d1 l1 g1 =>
    cases t2 with
    | emptyNode d => simp [expandChildren] at hq
    | leafNode d => simp [expandChildren] at hq
    | interiorNode d2 l2 g2 =>
      have hl1 : l1.elems.Nodup := (List.nodup_append.mp hnd1).1
      have hg1 : g1.elems.Nodup := (List.nodup_append.mp hnd1).2.1
      have hl2 : l2.elems.Nodup := (List.nodup_append.mp hnd2).1
      have hg2 : g2.elems.Nodup := (List.nodup_append.mp hnd2).2.1
      simp only [expandChildren, List.mem_cons, List.not_mem_nil, or_false] at hq
      rcases hq with rfl | rfl | rfl | rfl
      · exact ⟨hl1, hl2⟩
      · exact ⟨hl1, hg2⟩
      · exact ⟨hg1, hl2⟩
      · exact ⟨hg1, hg2⟩

theorem splitStep_countP (θ : ℚ) (f1 f2 : ℤ) :
    ∀ U : List ClusterPair, (∀ p ∈ U, PairNodup p) →
      (splitInadmissibleNodes θ U).1.countP (coversB f1 f2) +
        (splitInadmissibleNodes θ U).2.1.countP (coversB f1 f2) +
        (splitInadmissibleNodes θ U).2.2.countP (coversB f1 f2) =
        U.countP (coversB f1 f2) := by
  intro U
  induction U with
  | nil => intro _; rfl
  | cons p rest ih =>
    intro hnd
    have hndp : PairNodup p := hnd p (by simp)
    have hndr : ∀ q ∈ rest, PairNodup q := fun q hq => hnd q (by simp [hq])
    have hrec := ih hndr
    rw [List.countP_cons]
    cases hcl : classifyPair θ p with
    | drop =>
      have hcov := classify_drop_covers θ p f1 f2 hcl
      simp only [splitInadmissibleNodes, hcl]
      rw [hcov]
      simpa using hrec
    | inadmissible =>
      simp only [splitInadmissibleNodes, hcl, List.countP_cons]
      omega
    | admissible =>
      simp only [splitInadmissibleNodes, hcl, List.countP_cons]
      omega
    | expand =>
      have hexp := countP_expandChildren θ p f1 f2 hndp hcl
      simp only [splitInadmissibleNodes, hcl, List.countP_append]
      rw [hexp]
      omega

theorem splitStep_nodup (θ : ℚ) :
    ∀ U : List ClusterPair, (∀ p ∈ U, PairNodup p) →
      ∀ q ∈ (splitInadmissibleNodes θ U).2.2, PairNodup q := by
  intro U
  induction U with
  | nil => intro _ q hq; exact absurd hq (List.not_mem_nil q)
  | cons p rest ih =>
    intro hnd q hq
    have hndp : PairNodup p := hnd p (by simp)
    have hndr : ∀ r ∈ rest, PairNodup r := fun r hr => hnd r (by simp [hr])
    cases hcl : classifyPair θ p with
    | drop =>
      simp only [splitInadmissibleNodes, hcl] at hq
      exact ih hndr q hq
    | inadmissible =>
      simp only [splitInadmissibleNodes, hcl] at hq
      exact ih hndr q hq
    | admissible =>
      simp only [splitInadmissibleNodes, hcl] at hq
      exact ih hndr q hq
    | expand =>
      simp only [splitInadmissibleNodes, hcl, List.mem_append] at hq
      rcases hq with hq | hq
      · exact pairNodup_expandChildren p hndp q hq
      · exact ih hndr q hq

theorem bctLoop_countP (θ : ℚ) (f1 f2 : ℤ) :
    ∀ (fuel : ℕ) (U : List ClusterPair) (adm inadm : List ClusterPair),
      bctLoop θ fuel U = some (adm, inadm) → (∀ p ∈ U, PairNodup p) →
      adm.countP (coversB f1 f2) + inadm.countP (coversB f1 f2) =
        U.countP (coversB f1 f2) := by
  intro fuel
  induction fuel with
  | zero =>
    intro U adm inadm h hnd
    match U, h with
    | [], h =>
      simp only [bctLoop, Option.some.injEq, Prod.mk.injEq] at h
      rw [← h.1, ← h.2]
      rfl
    | _ :: _, h => exact absurd h (by simp [bctLoop])
  | succ fuel ih =>
    intro U adm inadm h hnd
    match U, h, hnd with
    | [], h, _ =>
      simp only [bctLoop, Option.some.injEq, Prod.mk.injEq] at h
      rw [← h.1, ← h.2]
      rfl
    | p :: rest, h, hnd =>
      rw [bctLoop] at h
      cases hrec : bctLoop θ fuel (splitInadmissibleNodes θ (p :: rest)).2.2 with
      | none => rw [hrec] at h; simp at h
      | some r =>
        rw [hrec] at h
        simp only [Option.some.injEq, Prod.mk.injEq] at h
        obtain ⟨ha, hi⟩ := h
        subst ha
        subst hi
        have hnext := splitStep_nodup θ (p :: rest) hnd
        have hrc := ih _ r.1 r.2 (by rw [hrec]) hnext
        have hstep := splitStep_countP θ f1 f2 (p :: rest) hnd
        rw [List.countP_append, List.countP_append]
        omega

theorem elems_assignIDs (t : BVHNode6D) : ∀ s : ℕ, (assignIDs t s).1.elems = t.elems := by
  induction t with
  | emptyNode d => intro s; rfl
  | leafNode d => intro s; rfl
  | interiorNode d l g ihl ihg =>
    intro s
    show ((assignIDs l (s + 1)).1.elems ++ _) = _
    rw [ihl, ihg]
    rfl

theorem buildBVH_elems_perm (fuel : ℕ) (points : List MassNormalPoint) (axis : ℕ)
    (t : BVHNode6D) (h : buildBVH fuel points axis = some t) :
    List.Perm t.elems (points.map (fun p => p.elementID)) := by
  have hperm := (buildBVH_leaves_perm fuel points axis t h).map (fun x => x.2.2)
  rw [List.map_map, List.map_map] at hperm
  rw [elems_eq_leaves_map]
  exact hperm

/-- C5.  After the block cluster tree finishes classifying, every ordered
pair of faces `(f1, f2)` — the diagonal included — is covered by exactly
one cluster pair in the concatenation of the admissible and inadmissible
lists: no face pair is counted twice and none is missed. -/
theorem bct_pairs_partition (θ : ℚ) (fuelB fuelL : ℕ) (points : List MassNormalPoint)
    (t : BVHNode6D) (adm inadm : List ClusterPair)
    (hb : Create6DBVHFromBodies fuelB points = some t)
    (hnd : (points.map (fun p => p.elementID)).Nodup)
    (hbct : bctBuild θ fuelL t = some (adm, inadm)) :
    ∀ f1 ∈ t.elems, ∀ f2 ∈ t.elems, (adm ++ inadm).countP (coversB f1 f2) = 1 := by
  intro f1 hf1 f2 hf2
  obtain ⟨t0, hb0, ht⟩ : ∃ t0, buildBVH fuelB points 0 = some t0 ∧ t = (assignIDs t0 0).1 := by
    unfold Create6DBVHFromBodies at hb
    cases hb0 : buildBVH fuelB points 0 with
    | none => rw [hb0] at hb; simp at hb
    | some t0 =>
      rw [hb0] at hb
      simp only [Option.some.injEq] at hb
      exact ⟨t0, rfl, hb.symm⟩
  have helems : t.elems = t0.elems := by
    rw [ht]
    exact elems_assignIDs t0 0
  have hend : t.elems.Nodup := by
    rw [helems]
    exact (buildBVH_elems_perm fuelB points 0 t0 hb0).nodup_iff.mpr hnd
  have hloop := bctLoop_countP θ f1 f2 fuelL [(t, t)] adm inadm hbct
    (by
      intro p hp
      simp only [List.mem_singleton] at hp
      subst hp
      exact ⟨hend, hend⟩)
  rw [List.countP_append]
  rw [hloop]
  have hcov : coversB f1 f2 (t, t) = true := by
    unfold coversB
    simp [hf1, hf2]
  simp [List.countP_cons, hcov]

/-- The lesser subtree of the concrete tree after ID assignment (node 1,
four leaves). -/
def exNode1 : BVHNode6D :=
  .interiorNode
    { totalMass := 4, centerOfMass := ⟨3/2, 3/2, 3/2⟩, minCoords := ⟨0, 0, 0⟩,
      maxCoords := ⟨3, 3, 3⟩, elementID := -1, splitAxis := 1, splitPoint := 3/2,
      numNodesInBranch := 7, nodeID := 1 }
    (.interiorNode
      { totalMass := 2, centerOfMass := ⟨1/2, 1/2, 1/2⟩, minCoords := ⟨0, 0, 0⟩,
        maxCoords := ⟨1, 1, 1⟩, elementID := -1, splitAxis := 2, splitPoint := 1/2,
        numNodesInBranch := 3, nodeID := 2 }
      (.leafNode
        { totalMass := 1, centerOfMass := ⟨0, 0, 0⟩, minCoords := ⟨0, 0, 0⟩,
          maxCoords := ⟨0, 0, 0⟩, elementID := 0, splitAxis := 0, splitPoint := 0,
          numNodesInBranch := 1, nodeID := 3 })
      (.leafNode
        { totalMass := 1, centerOfMass := ⟨1, 1, 1⟩, minCoords := ⟨1, 1, 1⟩,
          maxCoords := ⟨1, 1, 1⟩, elementID := 1, splitAxis := 0, splitPoint := 0,
          numNodesInBranch := 1, nodeID := 4 }))
    (.interiorNode
      { totalMass := 2, centerOfMass := ⟨5/2, 5/2, 5/2⟩, minCoords := ⟨2, 2, 2⟩,
        maxCoords := ⟨3, 3, 3⟩, elementID := -1, splitAxis := 2, splitPoint := 5/2,
        numNodesInBranch := 3, nodeID := 5 }
      (.leafNode
        { totalMass := 1, centerOfMass := ⟨2, 2, 2⟩, minCoords := ⟨2, 2, 2⟩,
          maxCoords := ⟨2, 2, 2⟩, elementID := 2, splitAxis := 0, splitPoint := 0,
          numNodesInBranch := 1, nodeID := 6 })
      (.leafNode
        { totalMass := 1, centerOfMass := ⟨3, 3, 3⟩, minCoords := ⟨3, 3, 3⟩,
          maxCoords := ⟨3, 3, 3⟩, elementID := 3, splitAxis := 0, splitPoint := 0,
          numNodesInBranch := 1, nodeID := 7 }))

/-- The greater subtree of the concrete tree after ID assignment (leaf of
face 4, node 8). -/
def exNode8 : BVHNode6D :=
  .leafNode
    { totalMass := 1, centerOfMass := ⟨100, 100, 100⟩, minCoords := ⟨100, 100, 100⟩,
      maxCoords := ⟨100, 100, 100⟩, elementID := 4, splitAxis := 1, splitPoint := 0,
      numNodesInBranch := 1, nodeID := 8 }

/-- The concrete tree after pre-order ID assignment. -/
def exTreeID : BVHNode6D :=
  .interiorNode
    { totalMass := 5, centerOfMass := ⟨106/5, 106/5, 106/5⟩, minCoords := ⟨0, 0, 0⟩,
      maxCoords := ⟨100, 100, 100⟩, elementID := -1, splitAxis := 0, splitPoint := 103/2,
      numNodesInBranch := 9, nodeID := 0 }
    exNode1 exNode8

theorem exTreeID_eq : (assignIDs exTree 0).1 = exTreeID := by rfl

theorem exCreate_eq : Create6DBVHFromBodies 18 exBodies = some exTreeID := by
  unfold Create6DBVHFromBodies
  rw [exTree_eq, ← exTreeID_eq]

theorem exBct_eq : bctBuild (1/4) 5 exTreeID =
    some ([(exNode1, exNode8), (exNode8, exNode1)],
      [(exNode1, exNode1), (exNode8, exNode8)]) := by
  norm_num [bctBuild, bctLoop, splitInadmissibleNodes, classifyPair, isPairAdmissible,
    isPairSmallEnough, nodeRatioLt, diagNormSq, boxContainsPoint, centerOf, distSq,
    Vector3.normSq, Vector3.sub, BVHNode6D.nElements, BVHNode6D.elems, BVHNode6D.dataOf,
    expandChildren, exTreeID, exNode1, exNode8]

/-- Witness for C5 at the concrete five-face tree, instantiated at the
face pair (0, 4). -/
theorem bct_pairs_partition_witness :
    (([(exNode1, exNode8), (exNode8, exNode1)] ++
      [(exNode1, exNode1), (exNode8, exNode8)]).countP (coversB 0 4)) = 1 :=
  bct_pairs_partition (1/4) 18 5 exBodies exTreeID _ _ exCreate_eq (by decide) exBct_eq
    0 (by decide) 4 (by decide)

/-- Inner loop of `BlockClusterTree::AfFullProduct` over cluster `J` for a
fixed face `f1`: accumulates `a_times_one_i = Σ af_ij` and
`a_times_v_i = Σ af_ij·v_j`, where `af_ij` is 0 when the faces coincide and
`area_j · k_s(x_i, x_j)` otherwise.  The kernel `ks` stands for
`Hs::MetricDistanceTermFrac` (its header `sobolev/hs_operators.h` is not
among the sources); the claim is proved for every kernel. -/
def afProductRow (ks : Vector3 → Vector3 → ℚ) (area : ℤ → ℚ) (bary : ℤ → Vector3)
    (v : ℤ → ℚ) (f1 : ℤ) : List ℤ → ℚ × ℚ
  | [] => (0, 0)
  | j :: rest =>
    let r := afProductRow ks area bary v f1 rest
    let af := if f1 = j then 0 else area j * ks (bary f1) (bary j)
    (af + r.1, af * v j + r.2)

/-- `BlockClusterTree::AfFullProduct`: for each face `f1` of cluster `I`,
multiply the row sums by `area_f1` and add
`2·(a_times_one_i·v_{f1} − a_times_v_i)` into the result entry of `f1`. -/
def AfFullProduct (ks : Vector3 → Vector3 → ℚ) (area : ℤ → ℚ) (bary : ℤ → Vector3)
    (J : List ℤ) (v : ℤ → ℚ) : List ℤ → (ℤ → ℚ) → (ℤ → ℚ)
  | [], result => result
  | f1 :: rest, result =>
    AfFullProduct ks area bary J v rest
      (Function.update result f1
        (result f1 +
          2 * ((afProductRow ks area bary v f1 J).1 * area f1 * v f1 -
            (afProductRow ks area bary v f1 J).2 * area f1)))

theorem afProductRow_fst (ks : Vector3 → Vector3 → ℚ) (area : ℤ → ℚ) (bary : ℤ → Vector3)
    (v : ℤ → ℚ) (f1 : ℤ) (J : List ℤ) :
    (afProductRow ks area bary v f1 J).1 =
      (J.map (fun j => if f1 = j then 0 else area j * ks (bary f1) (bary j))).sum := by
  induction J with
  | nil => rfl
  | cons j rest ih =>
    simp only [afProductRow, List.map_cons, List.sum_cons]
    rw [ih]

theorem afProductRow_snd (ks : Vector3 → Vector3 → ℚ) (area : ℤ → ℚ) (bary : ℤ → Vector3)
    (v : ℤ → ℚ) (f1 : ℤ) (J : List ℤ) :
    (afProductRow ks area bary v f1 J).2 =
      (J.map (fun j => (if f1 = j then 0 else area j * ks (bary f1) (bary j)) * v j)).sum := by
  induction J with
  | nil => rfl
  | cons j rest ih =>
    simp only [afProductRow, List.map_cons, List.sum_cons]
    rw [ih]

theorem afFullProduct_not_mem (ks : Vector3 → Vector3 → ℚ) (area : ℤ → ℚ)
    (bary : ℤ → Vector3) (J : List ℤ) (v : ℤ → ℚ) :
    ∀ (I : List ℤ) (r : ℤ → ℚ) (f : ℤ), f ∉ I →
      AfFullProduct ks area bary J v I r f = r f := by
  intro I
  induction I with
  | nil => intro r f _; rfl
  | cons f1 rest ih =>
    intro r f hf
    have hne : f ≠ f1 := fun h => hf (by simp [h])
    have hnr : f ∉ rest := fun h => hf (by simp [h])
    simp only [AfFullProduct]
    rw [ih _ f hnr, Function.update_noteq hne]

theorem row_sum_split (af : ℤ → ℚ) (v : ℤ → ℚ) (c : ℚ) (J : List ℤ) :
    (J.map (fun j => af j * (c - v j))).sum =
      (J.map af).sum * c - (J.map (fun j => af j * v j)).sum := by
  induction J with
  | nil => simp
  | cons j rest ih =>
    simp only [List.map_cons, List.sum_cons]
    rw [ih]
    ring

/-- C2.  For every cluster pair `(I, J)`, every kernel, and every input
vector `v`, `AfFullProduct` adds to the result entry of each face `f` of
`I` (listed once) exactly
`2 · area_f · Σ_{j ∈ J} [j ≠ f] · area_j · k_s(x_f, x_j) · (v_f − v_j)`,
the barycenters being the kernel arguments and the `j = f` term
contributing 0. -/
theorem afFullProduct_adds (ks : Vector3 → Vector3 → ℚ) (area : ℤ → ℚ) (bary : ℤ → Vector3)
    (I J : List ℤ) (v : ℤ → ℚ) (hI : I.Nodup) :
    ∀ (r : ℤ → ℚ), ∀ f ∈ I, AfFullProduct ks area bary J v I r f =
      r f + 2 * area f *
        (J.map (fun j => if j = f then 0
          else area j * ks (bary f) (bary j) * (v f - v j))).sum := by
  induction I with
  | nil => intro r f hf; exact absurd hf (List.not_mem_nil f)
  | cons f1 rest ih =>
    intro r f hf
    have hnd1 : f1 ∉ rest := (List.nodup_cons.mp hI).1
    have hndr : rest.Nodup := (List.nodup_cons.mp hI).2
    rcases List.mem_cons.mp hf with rfl | hfr
    · simp only [AfFullProduct]
      rw [afFullProduct_not_mem ks area bary J v rest _ f hnd1, Function.update_same]
      rw [afProductRow_fst, afProductRow_snd]
      have hsplit := row_sum_split
        (fun j => if f = j then 0 else area j * ks (bary f) (bary j)) v (v f) J
      have hmapeq : (J.map (fun j => if j = f then 0
          else area j * ks (bary f) (bary j) * (v f - v j))).sum =
          (J.map (fun j => (if f = j then 0 else area j * ks (bary f) (bary j)) *
            (v f - v j))).sum := by
        congr 1
        apply List.map_congr_left
        intro j _
        by_cases hj : j = f
        · simp [hj]
        · have hj' : ¬ f = j := fun h => hj h.symm
          simp only [if_neg hj, if_neg hj']
      rw [hmapeq, hsplit]
      ring
    · have hne : f ≠ f1 := fun h => hnd1 (h ▸ hfr)
      simp only [AfFullProduct]
      rw [ih hndr _ f hfr, Function.update_noteq hne]

/-- Witness for C2 on a concrete two-by-two cluster pair. -/
theorem afFullProduct_adds_witness :
    AfFullProduct (fun _ _ => 1) (fun _ => 1) (fun _ => ⟨0, 0, 0⟩) [0, 1]
      (fun j => (j : ℚ)) [0, 1] (fun _ => 0) 0 =
      0 + 2 * 1 * (([0, 1] : List ℤ).map (fun j => if j = 0 then 0
        else 1 * 1 * ((0 : ℚ) - (j : ℚ)))).sum :=
  afFullProduct_adds (fun _ _ => 1) (fun _ => 1) (fun _ => ⟨0, 0, 0⟩) [0, 1] [0, 1]
    (fun j => (j : ℚ)) (by decide) (fun _ => 0) 0 (by decide)

/-- `percolateWtDot` of `block_cluster_tree.cpp`: the upward pass; a leaf
stores `totalMass · v(elementID)`, an interior node the sum over children,
an empty node (no children) 0. -/
def percolateWtDot (v : ℤ → ℚ) : BVHNode6D → ℚ
  | .emptyNode _ => 0
  | .leafNode d => d.totalMass * v d.elementID
  | .interiorNode _ l g => percolateWtDot v l + percolateWtDot v g

/-- The cluster contribution accumulated into `B` at node index `n` by the
bucketed loop of `MultiplyAfPercolated`: the sum of
`a_IJ · wtDot(J)` over the admissible pairs whose first cluster carries
node ID `n` (`admissibleByCluster[n]`). -/
def clusterContribution (ks : Vector3 → Vector3 → ℚ) (adm : List ClusterPair)
    (v : ℤ → ℚ) (n : ℕ) : ℚ :=
  ((adm.filter (fun p => decide (p.1.dataOf.nodeID = n))).map
    (fun p => ks (centerOf p.1) (centerOf p.2) * percolateWtDot v p.2)).sum

/-- `percolateJ` of `block_cluster_tree.cpp`: the downward pass.  Each node
adds the inherited `parentB` to its own `B`; a leaf writes
`totalMass · B` into its result entry; children inherit the node's total. -/
def percolateJ (B : ℕ → ℚ) (parentB : ℚ) : BVHNode6D → (ℤ → ℚ) → (ℤ → ℚ)
  | .emptyNode _, b => b
  | .leafNode d, b => Function.update b d.elementID (d.totalMass * (parentB + B d.nodeID))
  | .interiorNode d l g, b =>
    percolateJ B (parentB + B d.nodeID) g (percolateJ B (parentB + B d.nodeID) l b)

/-- `BlockClusterTree::MultiplyAfPercolated`: upward pass, admissible
cluster contributions bucketed by first-cluster node ID, downward pass. -/
def MultiplyAfPercolated (ks : Vector3 → Vector3 → ℚ) (adm : List ClusterPair)
    (v : ℤ → ℚ) (t : BVHNode6D) (b : ℤ → ℚ) : ℤ → ℚ :=
  percolateJ (clusterContribution ks adm v) 0 t b

/-- `BlockClusterTree::PremultiplyAf1`: `Af_1.setOnes` followed by
`MultiplyAfPercolated(Af_1, Af_1)`; the upward pass reads the ones vector
before the downward pass overwrites it, so the aliasing is benign and the
result is the percolated product of the all-ones vector. -/
def PremultiplyAf1 (ks : Vector3 → Vector3 → ℚ) (adm : List ClusterPair)
    (t : BVHNode6D) : ℤ → ℚ :=
  MultiplyAfPercolated ks adm (fun _ => 1) t (fun _ => 1)

/-- The operator A of section 4.5 of the specification, discretized at face
barycenters: `(A v)_i = 2·area_i · Σ_{j ≠ i} area_j · k_s(x_i, x_j) ·
(v_i − v_j)`. -/
def specOperatorA (ks : Vector3 → Vector3 → ℚ) (area : ℤ → ℚ) (bary : ℤ → Vector3)
    (faces : List ℤ) (v : ℤ → ℚ) (i : ℤ) : ℚ :=
  2 * area i *
    ((faces.map (fun j => if j = i then 0
      else area j * ks (bary i) (bary j) * (v i - v j))).sum)

/-- Modelled from the spec: `k_s(x, y) = 1 / ‖x − y‖^(2+2s)` (the metric
distance term `Hs::MetricDistanceTermFrac`, whose header is not among the
sources), instantiated at `s = 1`, where it equals the rational
`1 / (distSq x y)²`. -/
def MetricDistanceTermFrac4 (x y : Vector3) : ℚ := 1 / (distSq x y) ^ 2

theorem percolateWtDot_eq (v : ℤ → ℚ) (area : ℤ → ℚ) (t : BVHNode6D)
    (harea : ∀ d ∈ t.leaves, d.totalMass = area d.elementID) :
    percolateWtDot v t = (t.elems.map (fun j => area j * v j)).sum := by
  induction t with
  | emptyNode d => rfl
  | leafNode d =>
    have := harea d (by simp [BVHNode6D.leaves])
    simp [percolateWtDot, BVHNode6D.elems, this]
  | interiorNode d l g ihl ihg =>
    have hl : ∀ x ∈ l.leaves, x.totalMass = area x.elementID := by
      intro x hx
      exact harea x (by simp [BVHNode6D.leaves, hx])
    have hg : ∀ x ∈ g.leaves, x.totalMass = area x.elementID := by
      intro x hx
      exact harea x (by simp [BVHNode6D.leaves, hx])
    show percolateWtDot v l + percolateWtDot v g = _
    rw [ihl hl, ihg hg]
    show _ = ((l.elems ++ g.elems).map _).sum
    rw [List.map_append, List.sum_append]

theorem percolateJ_not_mem (B : ℕ → ℚ) (t : BVHNode6D) :
    ∀ (inh : ℚ) (b : ℤ → ℚ) (x : ℤ), x ∉ t.elems → percolateJ B inh t b x = b x := by
  induction t with
  | emptyNode d => intro inh b x _; rfl
  | leafNode d =>
    intro inh b x hx
    have hne : x ≠ d.elementID := by
      intro h
      exact hx (by simp [BVHNode6D.elems, h])
    simp only [percolateJ]
    exact Function.update_noteq hne _ _
  | interiorNode d l g ihl ihg =>
    intro inh b x hx
    have hxl : x ∉ l.elems := fun h => hx (by simp [BVHNode6D.elems, h])
    have hxg : x ∉ g.elems := fun h => hx (by simp [BVHNode6D.elems, h])
    simp only [percolateJ]
    rw [ihg _ _ x hxg, ihl _ _ x hxl]

/-- The sum of `B` over the nodes on the root-to-leaf path leading to face
`f` (the node's own entry plus the path into the child containing `f`). -/
def pathB (B : ℕ → ℚ) : BVHNode6D → ℤ → ℚ
  | .emptyNode d, _ => B d.nodeID
  | .leafNode d, _ => B d.nodeID
  | .interiorNode d l g, f =>
    B d.nodeID + (if f ∈ l.elems then pathB B l f else pathB B g f)

theorem percolateJ_leaf_value (B : ℕ → ℚ) (t : BVHNode6D) :
    ∀ (inh : ℚ) (b : ℤ → ℚ), t.elems.Nodup →
      ∀ d ∈ t.leaves, percolateJ B inh t b d.elementID =
        d.totalMass * (inh + pathB B t d.elementID) := by
  induction t with
  | emptyNode dd =>
    intro inh b _ d hd
    exact absurd hd (List.not_mem_nil d)
  | leafNode dd =>
    intro inh b _ d hd
    simp only [BVHNode6D.leaves, List.mem_singleton] at hd
    subst hd
    simp only [percolateJ, pathB]
    rw [Function.update_same]
  | interiorNode dd l g ihl ihg =>
    intro inh b hnd d hd
    have hndl : l.elems.Nodup := (List.nodup_append.mp hnd).1
    have hndg : g.elems.Nodup := (List.nodup_append.mp hnd).2.1
    have hdisj : ∀ x, x ∈ l.elems → x ∈ g.elems → False := by
      have := (List.nodup_append.mp hnd).2.2
      intro x hx hy
      exact this hx hy
    simp only [BVHNode6D.leaves, List.mem_append] at hd
    simp only [percolateJ, pathB]
    rcases hd with hd | hd
    · have hmem : d.elementID ∈ l.elems := by
        rw [elems_eq_leaves_map]
        exact List.mem_map_of_mem _ hd
      have hnotg : d.elementID ∉ g.elems := fun h => hdisj _ hmem h
      rw [percolateJ_not_mem B g _ _ _ hnotg]
      rw [ihl _ _ hndl d hd, if_pos hmem]
      ring_nf
    · have hmem : d.elementID ∈ g.elems := by
        rw [elems_eq_leaves_map]
        exact List.mem_map_of_mem _ hd
      have hnotl : d.elementID ∉ l.elems := fun h => hdisj _ h hmem
      rw [ihg _ _ hndg d hd, if_neg hnotl]
      ring_nf

theorem nodeIDs_interior (d : NodeData) (l g : BVHNode6D) :
    (BVHNode6D.interiorNode d l g).nodeIDs = d.nodeID :: (l.nodeIDs ++ g.nodeIDs) := by
  unfold BVHNode6D.nodeIDs
  show ((BVHNode6D.interiorNode d l g).subtrees.map _) = _
  simp only [BVHNode6D.subtrees, List.map_cons, List.map_append]
  rfl

theorem subtrees_trans (t : BVHNode6D) :
    ∀ s ∈ t.subtrees, ∀ x ∈ s.subtrees, x ∈ t.subtrees := by
  induction t with
  | emptyNode d =>
    intro s hs x hx
    simp only [BVHNode6D.subtrees, List.mem_singleton] at hs
    subst hs
    exact hx
  | leafNode d =>
    intro s hs x hx
    simp only [BVHNode6D.subtrees, List.mem_singleton] at hs
    subst hs
    exact hx
  | interiorNode d l g ihl ihg =>
    intro s hs x hx
    simp only [BVHNode6D.subtrees, List.mem_cons, List.mem_append] at hs ⊢
    rcases hs with hs | hs | hs
    · subst hs
      simp only [BVHNode6D.subtrees, List.mem_cons, List.mem_append] at hx
      exact hx
    · exact Or.inr (Or.inl (ihl s hs x hx))
    · exact Or.inr (Or.inr (ihg s hs x hx))

theorem subtree_elems_subset (t : BVHNode6D) :
    ∀ s ∈ t.subtrees, ∀ x ∈ s.elems, x ∈ t.elems := by
  induction t with
  | emptyNode d =>
    intro s hs
    simp only [BVHNode6D.subtrees, List.mem_singleton] at hs
    subst hs
    intro x hx
    exact hx
  | leafNode d =>
    intro s hs
    simp only [BVHNode6D.subtrees, List.mem_singleton] at hs
    subst hs
    intro x hx
    exact hx
  | interiorNode d l g ihl ihg =>
    intro s hs x hx
    simp only [BVHNode6D.subtrees, List.mem_cons, List.mem_append] at hs
    show x ∈ l.elems ++ g.elems
    rw [List.mem_append]
    rcases hs with hs | hs | hs
    · subst hs
      exact List.mem_append.mp hx
    · exact Or.inl (ihl s hs x hx)
    · exact Or.inr (ihg s hs x hx)

theorem subtree_leaves_subset (t : BVHNode6D) :
    ∀ s ∈ t.subtrees, ∀ x ∈ s.leaves, x ∈ t.leaves := by
  induction t with
  | emptyNode d =>
    intro s hs
    simp only [BVHNode6D.subtrees, List.mem_singleton] at hs
    subst hs
    intro x hx
    exact hx
  | leafNode d =>
    intro s hs
    simp only [BVHNode6D.subtrees, List.mem_singleton] at hs
    subst hs
    intro x hx
    exact hx
  | interiorNode d l g ihl ihg =>
    intro s hs x hx
    simp only [BVHNode6D.subtrees, List.mem_cons, List.mem_append] at hs
    show x ∈ l.leaves ++ g.leaves
    rw [List.mem_append]
    rcases hs with hs | hs | hs
    · subst hs
      exact List.mem_append.mp hx
    · exact Or.inl (ihl s hs x hx)
    · exact Or.inr (ihg s hs x hx)

theorem subtree_nodeID_mem (t : BVHNode6D) (s : BVHNode6D) (hs : s ∈ t.subtrees) :
    s.dataOf.nodeID ∈ t.nodeIDs :=
  List.mem_map_of_mem _ hs

theorem pathB_add (B1 B2 : ℕ → ℚ) (t : BVHNode6D) (f : ℤ) :
    pathB (fun n => B1 n + B2 n) t f = pathB B1 t f + pathB B2 t f := by
  induction t with
  | emptyNode d => rfl
  | leafNode d => rfl
  | interiorNode d l g ihl ihg =>
    simp only [pathB]
    by_cases hf : f ∈ l.elems
    · rw [if_pos hf, if_pos hf, if_pos hf, ihl]
      ring
    · rw [if_neg hf, if_neg hf, if_neg hf, ihg]
      ring

theorem pathB_zero (B : ℕ → ℚ) (t : BVHNode6D) (f : ℤ)
    (hz : ∀ n ∈ t.nodeIDs, B n = 0) : pathB B t f = 0 := by
  induction t with
  | emptyNode d =>
    exact hz d.nodeID (by simp [BVHNode6D.nodeIDs, BVHNode6D.subtrees, BVHNode6D.dataOf])
  | leafNode d =>
    exact hz d.nodeID (by simp [BVHNode6D.nodeIDs, BVHNode6D.subtrees, BVHNode6D.dataOf])
  | interiorNode d l g ihl ihg =>
    have hid : B d.nodeID = 0 := hz d.nodeID (by
      rw [nodeIDs_interior]
      simp)
    have hzl : ∀ n ∈ l.nodeIDs, B n = 0 := by
      intro n hn
      apply hz
      rw [nodeIDs_interior]
      simp [hn]
    have hzg : ∀ n ∈ g.nodeIDs, B n = 0 := by
      intro n hn
      apply hz
      rw [nodeIDs_interior]
      simp [hn]
    simp only [pathB, hid]
    by_cases hf : f ∈ l.elems
    · rw [if_pos hf, ihl hzl]
      ring
    · rw [if_neg hf, ihg hzg]
      ring

theorem pathB_single (t : BVHNode6D) :
    ∀ (A : BVHNode6D) (c : ℚ) (f : ℤ), A ∈ t.subtrees → t.nodeIDs.Nodup →
      f ∈ t.elems → t.elems.Nodup →
      pathB (fun n => if A.dataOf.nodeID = n then c else 0) t f =
        if f ∈ A.elems then c else 0 := by
  induction t with
  | emptyNode d =>
    intro A c f hA _ hf _
    exact absurd hf (List.not_mem_nil f)
  | leafNode d =>
    intro A c f hA _ hf _
    simp only [BVHNode6D.subtrees, List.mem_singleton] at hA
    subst hA
    simp only [pathB, BVHNode6D.dataOf]
    rw [if_pos trivial, if_pos hf]
  | interiorNode d l g ihl ihg =>
    intro A c f hA hndi hf hnde
    have hndi' := hndi
    rw [nodeIDs_interior] at hndi'
    have hhead : d.nodeID ∉ l.nodeIDs ++ g.nodeIDs := (List.nodup_cons.mp hndi').1
    have hndtail : (l.nodeIDs ++ g.nodeIDs).Nodup := (List.nodup_cons.mp hndi').2
    have hndl : l.nodeIDs.Nodup := (List.nodup_append.mp hndtail).1
    have hndg : g.nodeIDs.Nodup := (List.nodup_append.mp hndtail).2.1
    have hiddisj : ∀ n, n ∈ l.nodeIDs → n ∈ g.nodeIDs → False := by
      have := (List.nodup_append.mp hndtail).2.2
      intro n hx hy
      exact this hx hy
    have hndel : l.elems.Nodup := (List.nodup_append.mp hnde).1
    have hndeg : g.elems.Nodup := (List.nodup_append.mp hnde).2.1
    have hedisj : ∀ x, x ∈ l.elems → x ∈ g.elems → False := by
      have := (List.nodup_append.mp hnde).2.2
      intro x hx hy
      exact this hx hy
    simp only [BVHNode6D.subtrees, List.mem_cons, List.mem_append] at hA
    simp only [pathB]
    rcases hA with hA | hA | hA
    · subst hA
      simp only [BVHNode6D.dataOf]
      have hfA : f ∈ (BVHNode6D.interiorNode d l g).elems := hf
      rw [if_pos trivial, if_pos hfA]
      by_cases hfl : f ∈ l.elems
      · rw [if_pos hfl]
        have hzl : pathB (fun n => if d.nodeID = n then c else 0) l f = 0 := by
          apply pathB_zero
          intro n hn
          have hne : d.nodeID ≠ n := by
            intro h
            exact hhead (by rw [List.mem_append]; exact Or.inl (h ▸ hn))
          rw [if_neg hne]
        rw [hzl]
        ring
      · rw [if_neg hfl]
        have hzg : pathB (fun n => if d.nodeID = n then c else 0) g f = 0 := by
          apply pathB_zero
          intro n hn
          have hne : d.nodeID ≠ n := by
            intro h
            exact hhead (by rw [List.mem_append]; exact Or.inr (h ▸ hn))
          rw [if_neg hne]
        rw [hzg]
        ring
    · have hAid : A.dataOf.nodeID ∈ l.nodeIDs := subtree_nodeID_mem l A hA
      have hne : d.nodeID ≠ A.dataOf.nodeID := by
        intro h
        exact hhead (by rw [List.mem_append]; exact Or.inl (h ▸ hAid))
      rw [if_neg (fun h => hne h.symm)]
      by_cases hfl : f ∈ l.elems
      · rw [if_pos hfl, ihl A c f hA hndl hfl hndel]
        ring
      · have hfg : f ∈ g.elems := by
          rcases List.mem_append.mp hf with h | h
          · exact absurd h hfl
          · exact h
        rw [if_neg hfl]
        have hznotg : pathB (fun n => if A.dataOf.nodeID = n then c else 0) g f = 0 := by
          apply pathB_zero
          intro n hn
          have hne2 : A.dataOf.nodeID ≠ n := by
            intro h
            exact hiddisj n (h ▸ hAid) hn
          rw [if_neg hne2]
        rw [hznotg]
        have hfnA : f ∉ A.elems := by
          intro h
          exact hfl (subtree_elems_subset l A hA f h)
        rw [if_neg hfnA]
        ring
    · have hAid : A.dataOf.nodeID ∈ g.nodeIDs := subtree_nodeID_mem g A hA
      have hne : d.nodeID ≠ A.dataOf.nodeID := by
        intro h
        exact hhead (by rw [List.mem_append]; exact Or.inr (h ▸ hAid))
      rw [if_neg (fun h => hne h.symm)]
      by_cases hfl : f ∈ l.elems
      · rw [if_pos hfl]
        have hznotl : pathB (fun n => if A.dataOf.nodeID = n then c else 0) l f = 0 := by
          apply pathB_zero
          intro n hn
          have hne2 : A.dataOf.nodeID ≠ n := by
            intro h
            exact hiddisj n hn (h ▸ hAid)
          rw [if_neg hne2]
        rw [hznotl]
        have hfnA : f ∉ A.elems := by
          intro h
          have := subtree_elems_subset g A hA f h
          exact hedisj f hfl this
        rw [if_neg hfnA]
        ring
      · have hfg : f ∈ g.elems := by
          rcases List.mem_append.mp hf with h | h
          · exact absurd h hfl
          · exact h
        rw [if_neg hfl, ihg A c f hA hndg hfg hndeg]
        ring

theorem clusterContribution_cons (ks : Vector3 → Vector3 → ℚ) (p : ClusterPair)
    (adm : List ClusterPair) (v : ℤ → ℚ) (n : ℕ) :
    clusterContribution ks (p :: adm) v n =
      (if p.1.dataOf.nodeID = n then
        ks (centerOf p.1) (centerOf p.2) * percolateWtDot v p.2 else 0) +
        clusterContribution ks adm v n := by
  unfold clusterContribution
  by_cases h : p.1.dataOf.nodeID = n
  · rw [List.filter_cons_of_pos (by simp [h]), if_pos h]
    simp
  · rw [List.filter_cons_of_neg (by simp [h]), if_neg h]
    simp

theorem pathB_clusterContribution (ks : Vector3 → Vector3 → ℚ) (v : ℤ → ℚ)
    (t : BVHNode6D) (f : ℤ) (hndI : t.nodeIDs.Nodup) (hf : f ∈ t.elems)
    (hnde : t.elems.Nodup) :
    ∀ adm : List ClusterPair, (∀ p ∈ adm, p.1 ∈ t.subtrees) →
      pathB (clusterContribution ks adm v) t f =
        (adm.map (fun p => if f ∈ p.1.elems then
          ks (centerOf p.1) (centerOf p.2) * percolateWtDot v p.2 else 0)).sum := by
  intro adm
  induction adm with
  | nil =>
    intro _
    simp only [List.map_nil, List.sum_nil]
    exact pathB_zero _ t f (fun n _ => rfl)
  | cons p rest ih =>
    intro hsub
    have hp1 : p.1 ∈ t.subtrees := hsub p (by simp)
    have hrest : ∀ q ∈ rest, q.1 ∈ t.subtrees := fun q hq => hsub q (by simp [hq])
    have heq : clusterContribution ks (p :: rest) v = fun n =>
        (if p.1.dataOf.nodeID = n then
          ks (centerOf p.1) (centerOf p.2) * percolateWtDot v p.2 else 0) +
          clusterContribution ks rest v n :=
      funext (fun n => clusterContribution_cons ks p rest v n)
    rw [heq, pathB_add, ih hrest,
      pathB_single t p.1 (ks (centerOf p.1) (centerOf p.2) * percolateWtDot v p.2) f
        hp1 hndI hf hnde]
    simp

theorem assignIDs_size (t : BVHNode6D) : ∀ s : ℕ, (assignIDs t s).1.size = t.size := by
  induction t with
  | emptyNode d => intro s; rfl
  | leafNode d => intro s; rfl
  | interiorNode d l g ihl ihg =>
    intro s
    show ((assignIDs l (s + 1)).1.size + (assignIDs g (assignIDs l (s + 1)).2).1.size + 1) = _
    rw [ihl, ihg]
    rfl

theorem assignIDs_snd (t : BVHNode6D) : ∀ s : ℕ, (assignIDs t s).2 = s + t.size := by
  induction t with
  | emptyNode d => intro s; rfl
  | leafNode d => intro s; rfl
  | interiorNode d l g ihl ihg =>
    intro s
    show (assignIDs g (assignIDs l (s + 1)).2).2 = _
    rw [ihg, ihl]
    show s + 1 + l.size + g.size = s + (l.size + g.size + 1)
    omega

theorem assignIDs_nodeIDs (t : BVHNode6D) :
    ∀ s : ℕ, (∀ n ∈ (assignIDs t s).1.nodeIDs, s ≤ n ∧ n < s + t.size) ∧
      (assignIDs t s).1.nodeIDs.Nodup := by
  induction t with
  | emptyNode d =>
    intro s
    constructor
    · intro n hn
      simp only [assignIDs, BVHNode6D.nodeIDs, BVHNode6D.subtrees, List.map_cons,
        List.map_nil, BVHNode6D.dataOf, List.mem_singleton] at hn
      subst hn
      refine ⟨le_refl n, ?_⟩
      show n < n + 1
      omega
    · simp [assignIDs, BVHNode6D.nodeIDs, BVHNode6D.subtrees]
  | leafNode d =>
    intro s
    constructor
    · intro n hn
      simp only [assignIDs, BVHNode6D.nodeIDs, BVHNode6D.subtrees, List.map_cons,
        List.map_nil, BVHNode6D.dataOf, List.mem_singleton] at hn
      subst hn
      refine ⟨le_refl n, ?_⟩
      show n < n + 1
      omega
    · simp [assignIDs, BVHNode6D.nodeIDs, BVHNode6D.subtrees]
  | interiorNode d l g ihl ihg =>
    intro s
    have hsnd : (assignIDs l (s + 1)).2 = s + 1 + l.size := assignIDs_snd l (s + 1)
    have hids : (assignIDs (BVHNode6D.interiorNode d l g) s).1.nodeIDs =
        s :: ((assignIDs l (s + 1)).1.nodeIDs ++
          (assignIDs g (assignIDs l (s + 1)).2).1.nodeIDs) := by
      show (BVHNode6D.interiorNode { d with nodeID := s } (assignIDs l (s + 1)).1
        (assignIDs g (assignIDs l (s + 1)).2).1).nodeIDs = _
      rw [nodeIDs_interior]
    obtain ⟨hbl, hnl⟩ := ihl (s + 1)
    obtain ⟨hbg, hng⟩ := ihg (assignIDs l (s + 1)).2
    constructor
    · intro n hn
      rw [hids] at hn
      simp only [List.mem_cons, List.mem_append] at hn
      have hsize : (BVHNode6D.interiorNode d l g).size = l.size + g.size + 1 := rfl
      rcases hn with rfl | hn | hn
      · omega
      · have := hbl n hn
        omega
      · have := hbg n hn
        rw [hsnd] at this
        omega
    · rw [hids]
      rw [List.nodup_cons]
      constructor
      · intro hmem
        rcases List.mem_append.mp hmem with h | h
        · have := hbl s h
          omega
        · have := hbg s h
          rw [hsnd] at this
          omega
      · rw [List.nodup_append]
        refine ⟨hnl, hng, ?_⟩
        intro n hn1 hn2
        have h1 := hbl n hn1
        have h2 := hbg n hn2
        rw [hsnd] at h2
        omega

theorem expandChildren_subtrees (t : BVHNode6D) (p : ClusterPair)
    (h1 : p.1 ∈ t.subtrees) (h2 : p.2 ∈ t.subtrees) :
    ∀ q ∈ expandChildren p, q.1 ∈ t.subtrees ∧ q.2 ∈ t.subtrees := by
  intro q hq
  obtain ⟨t1, t2⟩ := p
  cases t1 with
  | emptyNode d => simp [expandChildren] at hq
  | leafNode d => simp [expandChildren] at hq
  | interiorNode d1 l1 g1 =>
    cases t2 with
    | emptyNode d => simp [expandChildren] at hq
    | leafNode d => simp [expandChildren] at hq
    | interiorNode d2 l2 g2 =>
      have hl1 : l1 ∈ t.subtrees := subtrees_trans t _ h1 l1
        (by simp [BVHNode6D.subtrees, self_mem_subtrees])
      have hg1 : g1 ∈ t.subtrees := subtrees_trans t _ h1 g1
        (by simp [BVHNode6D.subtrees, self_mem_subtrees])
      have hl2 : l2 ∈ t.subtrees := subtrees_trans t _ h2 l2
        (by simp [BVHNode6D.subtrees, self_mem_subtrees])
      have hg2 : g2 ∈ t.subtrees := subtrees_trans t _ h2 g2
        (by simp [BVHNode6D.subtrees, self_mem_subtrees])
      simp only [expandChildren, List.mem_cons, List.not_mem_nil, or_false] at hq
      rcases hq with rfl | rfl | rfl | rfl
      · exact ⟨hl1, hl2⟩
      · exact ⟨hl1, hg2⟩
      · exact ⟨hg1, hl2⟩
      · exact ⟨hg1, hg2⟩

theorem splitStep_subtrees (θ : ℚ) (t : BVHNode6D) :
    ∀ U : List ClusterPair, (∀ p ∈ U, p.1 ∈ t.subtrees ∧ p.2 ∈ t.subtrees) →
      (∀ q ∈ (splitInadmissibleNodes θ U).1, q.1 ∈ t.subtrees ∧ q.2 ∈ t.subtrees) ∧
      (∀ q ∈ (splitInadmissibleNodes θ U).2.2, q.1 ∈ t.subtrees ∧ q.2 ∈ t.subtrees) := by
  intro U
  induction U with
  | nil =>
    intro _
    exact ⟨fun q hq => absurd hq (List.not_mem_nil q),
      fun q hq => absurd hq (List.not_mem_nil q)⟩
  | cons p rest ih =>
    intro hsub
    have hp := hsub p (by simp)
    have hrest : ∀ q ∈ rest, q.1 ∈ t.subtrees ∧ q.2 ∈ t.subtrees :=
      fun q hq => hsub q (by simp [hq])
    obtain ⟨iha, ihn⟩ := ih hrest
    cases hcl : classifyPair θ p with
    | drop =>
      simp only [splitInadmissibleNodes, hcl]
      exact ⟨iha, ihn⟩
    | inadmissible =>
      simp only [splitInadmissibleNodes, hcl]
      exact ⟨iha, ihn⟩
    | admissible =>
      simp only [splitInadmissibleNodes, hcl]
      refine ⟨?_, ihn⟩
      intro q hq
      rcases List.mem_cons.mp hq with rfl | hq
      · exact hp
      · exact iha q hq
    | expand =>
      simp only [splitInadmissibleNodes, hcl]
      refine ⟨iha, ?_⟩
      intro q hq
      rcases List.mem_append.mp hq with hq | hq
      · exact expandChildren_subtrees t p hp.1 hp.2 q hq
      · exact ihn q hq

theorem bctLoop_adm_subtrees (θ : ℚ) (t : BVHNode6D) :
    ∀ (fuel : ℕ) (U : List ClusterPair) (adm inadm : List ClusterPair),
      bctLoop θ fuel U = some (adm, inadm) →
      (∀ p ∈ U, p.1 ∈ t.subtrees ∧ p.2 ∈ t.subtrees) →
      ∀ p ∈ adm, p.1 ∈ t.subtrees ∧ p.2 ∈ t.subtrees := by
  intro fuel
  induction fuel with
  | zero =>
    intro U adm inadm h hsub
    match U, h with
    | [], h =>
      simp only [bctLoop, Option.some.injEq, Prod.mk.injEq] at h
      rw [← h.1]
      intro p hp
      exact absurd hp (List.not_mem_nil p)
    | _ :: _, h => exact absurd h (by simp [bctLoop])
  | succ fuel ih =>
    intro U adm inadm h hsub
    match U, h, hsub with
    | [], h, _ =>
      simp only [bctLoop, Option.some.injEq, Prod.mk.injEq] at h
      rw [← h.1]
      intro p hp
      exact absurd hp (List.not_mem_nil p)
    | u0 :: rest, h, hsub =>
      rw [bctLoop] at h
      cases hrec : bctLoop θ fuel (splitInadmissibleNodes θ (u0 :: rest)).2.2 with
      | none => rw [hrec] at h; simp at h
      | some r =>
        rw [hrec] at h
        simp only [Option.some.injEq, Prod.mk.injEq] at h
        obtain ⟨ha, hi⟩ := h
        subst ha
        obtain ⟨hstepa, hstepn⟩ := splitStep_subtrees θ t (u0 :: rest) hsub
        intro p hp
        rcases List.mem_append.mp hp with hp | hp
        · exact hstepa p hp
        · exact ih _ r.1 r.2 (by rw [hrec]) hstepn p hp

/-- C3 (amended).  After construction, the precomputed vector `Af_1` is the
percolated admissible-part product of the all-ones vector, not `A·𝟙`:
for every face `f`,
`Af_1(f) = area_f · Σ over admissible pairs (I, J) with f ∈ I of
k_s(Iᶜ, Jᶜ) · (Σ_{j ∈ J} area_j)`. -/
theorem premultiplyAf1_closed_form (ks : Vector3 → Vector3 → ℚ) (θ : ℚ)
    (fuelB fuelL : ℕ) (points : List MassNormalPoint) (t : BVHNode6D)
    (adm inadm : List ClusterPair) (area : ℤ → ℚ)
    (hb : Create6DBVHFromBodies fuelB points = some t)
    (hnd : (points.map (fun p => p.elementID)).Nodup)
    (hbct : bctBuild θ fuelL t = some (adm, inadm))
    (harea : ∀ d ∈ t.leaves, d.totalMass = area d.elementID) :
    ∀ f ∈ t.elems, PremultiplyAf1 ks adm t f =
      area f * ((adm.map (fun p => if f ∈ p.1.elems then
        ks (centerOf p.1) (centerOf p.2) * ((p.2.elems.map area).sum) else 0)).sum) := by
  intro f hf
  obtain ⟨t0, hb0, ht⟩ : ∃ t0, buildBVH fuelB points 0 = some t0 ∧
      t = (assignIDs t0 0).1 := by
    unfold Create6DBVHFromBodies at hb
    cases hb0 : buildBVH fuelB points 0 with
    | none => rw [hb0] at hb; simp at hb
    | some t0 =>
      rw [hb0] at hb
      simp only [Option.some.injEq] at hb
      exact ⟨t0, rfl, hb.symm⟩
  have hndI : t.nodeIDs.Nodup := by
    rw [ht]
    exact (assignIDs_nodeIDs t0 0).2
  have hnde : t.elems.Nodup := by
    have helems : t.elems = t0.elems := by
      rw [ht]
      exact elems_assignIDs t0 0
    rw [helems]
    exact (buildBVH_elems_perm fuelB points 0 t0 hb0).nodup_iff.mpr hnd
  have hsub : ∀ p ∈ adm, p.1 ∈ t.subtrees ∧ p.2 ∈ t.subtrees := by
    apply bctLoop_adm_subtrees θ t fuelL [(t, t)] adm inadm hbct
    intro p hp
    simp only [List.mem_singleton] at hp
    subst hp
    exact ⟨self_mem_subtrees t, self_mem_subtrees t⟩
  obtain ⟨d, hd, hdid⟩ : ∃ d ∈ t.leaves, d.elementID = f := by
    rw [elems_eq_leaves_map] at hf
    obtain ⟨d, hd, hdid⟩ := List.mem_map.mp hf
    exact ⟨d, hd, hdid⟩
  have hleaf := percolateJ_leaf_value (clusterContribution ks adm (fun _ => 1)) t 0
    (fun _ => 1) hnde d hd
  rw [hdid] at hleaf
  have hval : PremultiplyAf1 ks adm t f =
      d.totalMass * (0 + pathB (clusterContribution ks adm (fun _ => 1)) t f) := hleaf
  rw [hval, zero_add, harea d hd, hdid]
  rw [pathB_clusterContribution ks (fun _ => 1) t f hndI hf hnde adm
    (fun p hp => (hsub p hp).1)]
  congr 1
  have hmaps : ∀ p ∈ adm,
      (if f ∈ p.1.elems then
        ks (centerOf p.1) (centerOf p.2) * percolateWtDot (fun _ => 1) p.2 else 0) =
      (if f ∈ p.1.elems then
        ks (centerOf p.1) (centerOf p.2) * ((p.2.elems.map area).sum) else 0) := by
    intro p hp
    by_cases hfp : f ∈ p.1.elems
    · rw [if_pos hfp, if_pos hfp]
      have hwt : percolateWtDot (fun _ => 1) p.2 = ((p.2.elems.map area).sum) := by
        rw [percolateWtDot_eq (fun _ => 1) area p.2
          (fun x hx => harea x (subtree_leaves_subset t p.2 (hsub p hp).2 x hx))]
        have hmul : ∀ j ∈ p.2.elems, area j * (1:ℚ) = area j := fun j _ => mul_one _
        rw [List.map_congr_left hmul]
      rw [hwt]
    · rw [if_neg hfp, if_neg hfp]
  rw [List.map_congr_left hmaps]

/-- The admissible list of the concrete block cluster tree. -/
def exAdm : List ClusterPair := [(exNode1, exNode8), (exNode8, exNode1)]

/-- The inadmissible list of the concrete block cluster tree. -/
def exInadm : List ClusterPair := [(exNode1, exNode1), (exNode8, exNode8)]

/-- Barycenters of the five concrete faces. -/
def exBary : ℤ → Vector3 := fun i =>
  if i = 0 then ⟨0, 0, 0⟩
  else if i = 1 then ⟨1, 1, 1⟩
  else if i = 2 then ⟨2, 2, 2⟩
  else if i = 3 then ⟨3, 3, 3⟩
  else ⟨100, 100, 100⟩

/-- Areas of the five concrete faces (all 1). -/
def exArea : ℤ → ℚ := fun _ => 1

/-- C3 (counterexample).  On the concrete five-face instance the
block cluster tree has admissible pairs, and the stored `Af_1` at face 0 is
nonzero, while the operator A of section 4.5 applied to the all-ones vector
vanishes there (every `v_i − v_j` is 0): `Af_1 ≠ A·𝟙`. -/
theorem premultiplyAf1_counterexample :
    bctBuild (1/4) 5 exTreeID = some (exAdm, exInadm) ∧
    specOperatorA MetricDistanceTermFrac4 exArea exBary exTreeID.elems (fun _ => 1) 0 = 0 ∧
    PremultiplyAf1 MetricDistanceTermFrac4 exAdm exTreeID 0 ≠ 0 := by
  refine ⟨exBct_eq, ?_, ?_⟩
  · norm_num [specOperatorA, exTreeID, exNode1, exNode8, BVHNode6D.elems, exArea, exBary]
  · norm_num [PremultiplyAf1, MultiplyAfPercolated, percolateJ, clusterContribution,
      percolateWtDot, exAdm, exNode1, exNode8, exTreeID, centerOf, MetricDistanceTermFrac4,
      distSq, Vector3.normSq, Vector3.sub, BVHNode6D.dataOf, Function.update, List.filter]

/-- Witness for the amended C3 at the concrete instance, at face 0. -/
theorem premultiplyAf1_closed_form_witness :
    PremultiplyAf1 MetricDistanceTermFrac4 exAdm exTreeID 0 =
      exArea 0 * ((exAdm.map (fun p => if (0:ℤ) ∈ p.1.elems then
        MetricDistanceTermFrac4 (centerOf p.1) (centerOf p.2) *
          ((p.2.elems.map exArea).sum) else 0)).sum) :=
  premultiplyAf1_closed_form MetricDistanceTermFrac4 (1/4) 18 5 exBodies exTreeID
    exAdm exInadm exArea exCreate_eq (by decide) exBct_eq (by decide) 0 (by decide)

/-- `SurfaceFlow::LS_STEP_THRESHOLD = 1e-10`. -/
def LS_STEP_THRESHOLD : ℚ := 1 / 10 ^ 10

/-- `SurfaceFlow::SetGradientStep`: every vertex moves to
`origPositions − delta · gradient`. -/
def SetGradientStep (orig grad : List Vector3) (delta : ℚ) : List Vector3 :=
  List.zipWith (fun p g => p.sub (Vector3.scale delta g)) orig grad

/-- `SurfaceFlow::SaveCurrentPositions`: copy each vertex position into a
row of three coordinates. -/
def SaveCurrentPositions (pos : List Vector3) : List (ℚ × ℚ × ℚ) :=
  pos.map (fun v => (v.x, v.y, v.z))

/-- `SurfaceFlow::RestorePositions`: copy each saved row back into a vertex
position. -/
def RestorePositions (rows : List (ℚ × ℚ × ℚ)) : List Vector3 :=
  rows.map (fun r => ⟨r.1, r.2.1, r.2.2⟩)

/-- The backtracking loop of `SurfaceFlow::LineSearchStep` (`sigma = 0.01`):
while `delta` exceeds the threshold, test the Armijo decrease at the
stepped positions and halve on failure; return the final `delta`.  `fuel`
bounds the iterations. -/
def lineSearchLoop (E : List Vector3 → ℚ) (orig grad : List Vector3)
    (E0 gradNorm gradDot : ℚ) : ℕ → ℚ → Option ℚ
  | 0, _ => none
  | fuel + 1, delta =>
    if LS_STEP_THRESHOLD < delta then
      if E0 - E (SetGradientStep orig grad delta) < 1 / 100 * delta * gradNorm * gradDot then
        lineSearchLoop E orig grad E0 gradNorm gradDot fuel (delta / 2)
      else some delta
    else some delta

/-- `SurfaceFlow::LineSearchStep`.  The energy is a function of the vertex
positions; `gradNorm` stands for `gradient.norm()` (the one square root of
the routine, carried as a parameter).  Returns the accepted step size and
the final positions: a tiny gradient returns 0 with untouched positions;
a failed search restores the snapshot and returns 0; an accepted step
leaves the stepped positions in place. -/
def LineSearchStep (E : List Vector3 → ℚ) (pos grad : List Vector3)
    (gradNorm initGuess gradDot : ℚ) (fuel : ℕ) : Option (ℚ × List Vector3) :=
  if gradNorm < 1 / 10 ^ 10 then some (0, pos)
  else
    match lineSearchLoop E pos grad (E pos) gradNorm gradDot fuel initGuess with
    | none => none
    | some df =>
      if df ≤ LS_STEP_THRESHOLD then
        some (0, RestorePositions (SaveCurrentPositions pos))
      else some (df, SetGradientStep pos grad df)

/-- `SurfaceFlow::StepLineSearch`: initial guess `1 / gradient.norm()` and
`gradDot = 1`. -/
def StepLineSearch (E : List Vector3 → ℚ) (pos grad : List Vector3)
    (gradNorm : ℚ) (fuel : ℕ) : Option (ℚ × List Vector3) :=
  LineSearchStep E pos grad gradNorm (1 / gradNorm) 1 fuel

theorem lineSearchLoop_spec (E : List Vector3 → ℚ) (orig grad : List Vector3)
    (E0 gradNorm gradDot : ℚ) :
    ∀ (fuel : ℕ) (d0 df : ℚ),
      lineSearchLoop E orig grad E0 gradNorm gradDot fuel d0 = some df →
      (∃ k : ℕ, df = d0 / 2 ^ k) ∧
      (LS_STEP_THRESHOLD < df →
        E0 - E (SetGradientStep orig grad df) ≥ 1 / 100 * df * gradNorm * gradDot) := by
  intro fuel
  induction fuel with
  | zero =>
    intro d0 df h
    exact absurd h (by simp [lineSearchLoop])
  | succ fuel ih =>
    intro d0 df h
    rw [lineSearchLoop] at h
    by_cases hT : LS_STEP_THRESHOLD < d0
    · rw [if_pos hT] at h
      by_cases hdec : E0 - E (SetGradientStep orig grad d0) <
          1 / 100 * d0 * gradNorm * gradDot
      · rw [if_pos hdec] at h
        obtain ⟨⟨k, hk⟩, harm⟩ := ih (d0 / 2) df h
        refine ⟨⟨k + 1, ?_⟩, harm⟩
        rw [hk, div_div, pow_succ]
        ring_nf
      · rw [if_neg hdec] at h
        simp only [Option.some.injEq] at h
        subst h
        refine ⟨⟨0, by simp⟩, ?_⟩
        intro _
        exact le_of_not_lt hdec
    · rw [if_neg hT] at h
      simp only [Option.some.injEq] at h
      subst h
      refine ⟨⟨0, by simp⟩, ?_⟩
      intro hc
      exact absurd hc hT

/-- C7.  Whenever `LineSearchStep` returns a step size `δ > 0`, the final
positions are `saved − δ·gradient` (`SetGradientStep` at `δ`), `δ` arose
from the initial guess by repeated halving, and the Armijo condition holds
at acceptance with `σ = 0.01`:
`E(saved) − E(new) ≥ σ·δ·‖gradient‖·gradDot`.  Moreover `StepLineSearch`
calls `LineSearchStep` with initial guess `1/‖gradient‖` and `gradDot = 1`,
so every accepted step strictly decreases the energy. -/
theorem lineSearchStep_spec :
    (∀ (E : List Vector3 → ℚ) (pos grad : List Vector3) (gradNorm ig gd : ℚ)
      (fuel : ℕ) (δ : ℚ) (newPos : List Vector3),
      LineSearchStep E pos grad gradNorm ig gd fuel = some (δ, newPos) → 0 < δ →
      newPos = SetGradientStep pos grad δ ∧ (∃ k : ℕ, δ = ig / 2 ^ k) ∧
        E pos - E newPos ≥ 1 / 100 * δ * gradNorm * gd ∧
        (0 < gd → E newPos < E pos)) ∧
    (∀ (E : List Vector3 → ℚ) (pos grad : List Vector3) (gradNorm : ℚ)
      (fuel : ℕ) (δ : ℚ) (newPos : List Vector3),
      StepLineSearch E pos grad gradNorm fuel =
        LineSearchStep E pos grad gradNorm (1 / gradNorm) 1 fuel ∧
      (StepLineSearch E pos grad gradNorm fuel = some (δ, newPos) → 0 < δ →
        E newPos < E pos)) := by
  have hmain : ∀ (E : List Vector3 → ℚ) (pos grad : List Vector3) (gradNorm ig gd : ℚ)
      (fuel : ℕ) (δ : ℚ) (newPos : List Vector3),
      LineSearchStep E pos grad gradNorm ig gd fuel = some (δ, newPos) → 0 < δ →
      newPos = SetGradientStep pos grad δ ∧ (∃ k : ℕ, δ = ig / 2 ^ k) ∧
        E pos - E newPos ≥ 1 / 100 * δ * gradNorm * gd ∧
        (0 < gd → E newPos < E pos) := by
    intro E pos grad gradNorm ig gd fuel δ newPos h hδ
    unfold LineSearchStep at h
    by_cases hg : gradNorm < 1 / 10 ^ 10
    · rw [if_pos hg] at h
      simp only [Option.some.injEq, Prod.mk.injEq] at h
      exact absurd (h.1 ▸ hδ) (lt_irrefl δ)
    · rw [if_neg hg] at h
      cases hloop : lineSearchLoop E pos grad (E pos) gradNorm gd fuel ig with
      | none => rw [hloop] at h; simp at h
      | some df =>
        rw [hloop] at h
        dsimp only at h
        by_cases hsmall : df ≤ LS_STEP_THRESHOLD
        · rw [if_pos hsmall] at h
          simp only [Option.some.injEq, Prod.mk.injEq] at h
          exact absurd (h.1 ▸ hδ) (lt_irrefl δ)
        · rw [if_neg hsmall] at h
          simp only [Option.some.injEq, Prod.mk.injEq] at h
          obtain ⟨hδeq, hpos⟩ := h
          subst hδeq
          obtain ⟨⟨k, hk⟩, harm⟩ := lineSearchLoop_spec E pos grad (E pos) gradNorm gd
            fuel ig df hloop
          have harm' := harm (lt_of_not_le hsmall)
          refine ⟨hpos.symm, ⟨k, hk⟩, ?_, ?_⟩
          · rw [← hpos]
            exact harm'
          · intro hgd
            have hgn : (1:ℚ) / 10 ^ 10 ≤ gradNorm := le_of_not_lt hg
            have hgn0 : (0:ℚ) < gradNorm := lt_of_lt_of_le (by norm_num) hgn
            have htarget : 0 < 1 / 100 * df * gradNorm * gd := by
              apply mul_pos (mul_pos (mul_pos (by norm_num) hδ) hgn0) hgd
            rw [← hpos]
            linarith [harm']
  refine ⟨hmain, ?_⟩
  intro E pos grad gradNorm fuel δ newPos
  refine ⟨rfl, ?_⟩
  intro h hδ
  exact ((hmain E pos grad gradNorm (1 / gradNorm) 1 fuel δ newPos h hδ).2.2.2) one_pos

/-- C8.  If the backtracking drives the step to the `1e-10` threshold or
below, `LineSearchStep` returns step size 0 with the snapshot restored
exactly; restoring a snapshot is the identity on positions. -/
theorem lineSearch_fail_restores :
    (∀ (E : List Vector3 → ℚ) (pos grad : List Vector3) (gradNorm ig gd : ℚ)
      (fuel : ℕ) (df : ℚ), ¬ gradNorm < 1 / 10 ^ 10 →
      lineSearchLoop E pos grad (E pos) gradNorm gd fuel ig = some df →
      df ≤ LS_STEP_THRESHOLD →
      LineSearchStep E pos grad gradNorm ig gd fuel = some (0, pos)) ∧
    (∀ pos : List Vector3, RestorePositions (SaveCurrentPositions pos) = pos) := by
  have hround : ∀ pos : List Vector3, RestorePositions (SaveCurrentPositions pos) = pos := by
    intro pos
    unfold RestorePositions SaveCurrentPositions
    rw [List.map_map]
    have hid : ∀ v ∈ pos,
        ((fun r : ℚ × ℚ × ℚ => (⟨r.1, r.2.1, r.2.2⟩ : Vector3)) ∘
          (fun v : Vector3 => (v.x, v.y, v.z))) v = id v := by
      intro v _
      cases v
      rfl
    rw [List.map_congr_left hid, List.map_id]
  refine ⟨?_, hround⟩
  intro E pos grad gradNorm ig gd fuel df hg hloop hsmall
  unfold LineSearchStep
  rw [if_neg hg, hloop]
  dsimp only
  rw [if_pos hsmall, hround]

/-- Concrete energy for the accepting line-search witness: the x-coordinate
of the first vertex. -/
def exEnergy : List Vector3 → ℚ := fun ps => (ps.headD ⟨0, 0, 0⟩).x

/-- Concrete energy for the failing line-search witness: constant 0, so no
step can achieve the positive Armijo decrease. -/
def exEnergyConst : List Vector3 → ℚ := fun _ => 0

/-- Witness for C7: a concrete accepted step of size 1. -/
theorem lineSearchStep_spec_witness :
    ([⟨-1, 0, 0⟩] : List Vector3) = SetGradientStep [⟨0, 0, 0⟩] [⟨1, 0, 0⟩] 1 ∧
    (∃ k : ℕ, (1 : ℚ) = 1 / 2 ^ k) ∧
    exEnergy [⟨0, 0, 0⟩] - exEnergy [⟨-1, 0, 0⟩] ≥ 1 / 100 * 1 * 1 * 1 ∧
    (0 < (1 : ℚ) → exEnergy [⟨-1, 0, 0⟩] < exEnergy [⟨0, 0, 0⟩]) :=
  lineSearchStep_spec.1 exEnergy [⟨0, 0, 0⟩] [⟨1, 0, 0⟩] 1 1 1 5 1 [⟨-1, 0, 0⟩]
    (by norm_num [LineSearchStep, lineSearchLoop, SetGradientStep, exEnergy,
      LS_STEP_THRESHOLD, Vector3.sub, Vector3.scale])
    (by norm_num)

/-- Witness for C8: a concrete failed search (constant energy) that
backtracks to `2⁻³⁴ ≤ 1e-10` and returns 0 with the original positions. -/
theorem lineSearch_fail_restores_witness :
    LineSearchStep exEnergyConst [⟨0, 0, 0⟩] [⟨1, 0, 0⟩] 1 1 1 40 =
      some (0, [⟨0, 0, 0⟩]) :=
  lineSearch_fail_restores.1 exEnergyConst [⟨0, 0, 0⟩] [⟨1, 0, 0⟩] 1 1 1 40 (1 / 2 ^ 34)
    (by norm_num)
    (by norm_num [lineSearchLoop, exEnergyConst, LS_STEP_THRESHOLD])
    (by norm_num [LS_STEP_THRESHOLD])

end RepSurf
